import Mathlib

/-!
Shallow embedding of the distance-vector routing node implemented in
`src/model.py` (class `DVModel`) and `src/main.py` (`parse_command`).

Conventions of the embedding:
* Python dictionaries become association lists (`Dict β`) with Python
  semantics: lookup finds the first (unique) matching key, assignment
  replaces the value in place, fresh keys are appended (insertion order).
* Python floats are modelled as exact decimal numbers (`Dec`, the value
  `m / 10 ^ e`), kept normalized (no trailing zero in the fraction), so
  that `float(s)` parsing and f-string printing are mutually inverse just
  as parse/repr are for Python floats.  Exotic float syntax (exponents,
  `inf`, `nan`, underscores, surrounding whitespace) and binary rounding
  are outside the modelled fragment.
* `sys.exit(n)` / `exit(n)` become `Except.error n`; an uncaught Python
  exception (the `KeyError` in `recover`) becomes `Option.none`.
* Console/callback effects (`callback_obj.info`, `on_broadcast`,
  `set_enabled`) become an explicit event list `Ev`.
-/

namespace DV

/-- Decimal numbers, value `m / 10 ^ e`: the model of Python floats. -/
structure Dec where
  m : Int
  e : Nat
deriving DecidableEq

/-- Strip shared factors of ten from mantissa and exponent (the canonical
form corresponds to the shortest decimal `repr` of a Python float). -/
def stripTen : Int → Nat → Int × Nat
  | m, 0 => (m, 0)
  | m, e + 1 => if m % 10 = 0 then stripTen (m / 10) e else (m, e + 1)

/-- Build a decimal in canonical form. -/
def Dec.norm (m : Int) (e : Nat) : Dec :=
  let p := stripTen m e
  ⟨p.1, p.2⟩

/-- Addition of decimals (Python float addition, without binary rounding). -/
def Dec.add (a b : Dec) : Dec :=
  Dec.norm (a.m * (10 : Int) ^ b.e + b.m * (10 : Int) ^ a.e) (a.e + b.e)

/-- Strict order on decimals (Python `<` on floats). -/
def Dec.blt (a b : Dec) : Bool :=
  a.m * (10 : Int) ^ b.e < b.m * (10 : Int) ^ a.e

/-- The float `0.0` (also the int `0` used to seed Dijkstra distances). -/
def Dec.zero : Dec := ⟨0, 0⟩

/-- A decimal is in canonical form. -/
def Dec.normalized (d : Dec) : Prop := d.e = 0 ∨ ¬ d.m % 10 = 0

instance (d : Dec) : Decidable d.normalized := by
  unfold Dec.normalized
  infer_instance

/-- The character of one decimal digit. -/
def digitChar (d : Nat) : Char := Char.ofNat (48 + d)

/-- The value of one decimal digit character. -/
def charDigit (c : Char) : Option Nat :=
  if 48 ≤ c.toNat ∧ c.toNat ≤ 57 then some (c.toNat - 48) else none

/-- Decimal digits of `n`, most significant first, by fuelled division. -/
def natToDigs : Nat → Nat → List Char
  | 0, _ => []
  | fuel + 1, n => if n = 0 then [] else natToDigs fuel (n / 10) ++ [digitChar (n % 10)]

/-- Decimal digit string of a natural number (`str(n)`). -/
def natStrChars (n : Nat) : List Char := if n = 0 then ['0'] else natToDigs (n + 1) n

/-- `str(i)` for a Python int. -/
def intStrChars (i : Int) : List Char :=
  (if i < 0 then ['-'] else []) ++ natStrChars i.natAbs

/-- Fold decimal digits into a number; `none` on a non-digit character. -/
def digsToNat : Nat → List Char → Option Nat
  | acc, [] => some acc
  | acc, c :: t =>
    match charDigit c with
    | some d => digsToNat (10 * acc + d) t
    | none => none

/-- Strip the optional leading sign (`-` gives a negative number, `+` is
dropped), as Python numeric literals allow. -/
def signSplit (l : List Char) : Bool × List Char :=
  match l with
  | [] => (false, [])
  | c :: t => if c = '-' then (true, t) else if c = '+' then (false, t) else (false, c :: t)

/-- The modelled fragment of Python `int(s)`: an optional sign then a
nonempty run of decimal digits. -/
def parseIntChars (l : List Char) : Option Int :=
  if (signSplit l).2 = [] then none
  else (digsToNat 0 (signSplit l).2).map fun n =>
    if (signSplit l).1 then -(n : Int) else (n : Int)

/-- The digits of a float literal, after the sign: the integer part, then
the rest beginning at the first dot (empty when there is no dot). -/
def parseFloatParts (neg : Bool) (ip : List Char) : List Char → Option Dec
  | [] =>
    if ip = [] then none
    else (digsToNat 0 ip).map fun a =>
      Dec.norm (if neg then -(a : Int) else (a : Int)) 0
  | _ :: fp =>
    if fp.contains '.' then none
    else if ip = [] ∧ fp = [] then none
    else
      match digsToNat 0 ip, digsToNat 0 fp with
      | some a, some b =>
        some (Dec.norm
          (if neg then -((a : Int) * (10 : Int) ^ fp.length + (b : Int))
           else (a : Int) * (10 : Int) ^ fp.length + (b : Int)) fp.length)
      | _, _ => none

/-- The modelled fragment of Python `float(s)`: optional sign, decimal
digits, at most one dot, at least one digit overall. -/
def parseFloatChars (l : List Char) : Option Dec :=
  parseFloatParts (signSplit l).1
    ((signSplit l).2.takeWhile (fun c => c ≠ '.'))
    ((signSplit l).2.dropWhile (fun c => c ≠ '.'))

/-- The digit string of the mantissa, left-padded with zeros so that a
decimal point with `e` fractional digits can be placed inside it. -/
def padDigits (mAbs : Nat) (e : Nat) : List Char :=
  List.replicate (e + 1 - (natStrChars mAbs).length) '0' ++ natStrChars mAbs

/-- f-string formatting of a canonical decimal, like the `repr` of a Python
float: always shows a decimal point. -/
def floatReprChars (d : Dec) : List Char :=
  if d.e = 0 then intStrChars d.m ++ ['.', '0']
  else
    (if d.m < 0 then ['-'] else []) ++
      (padDigits d.m.natAbs d.e).take ((padDigits d.m.natAbs d.e).length - d.e) ++
      '.' :: (padDigits d.m.natAbs d.e).drop ((padDigits d.m.natAbs d.e).length - d.e)

/-- Python `str.split(sep)` for a one-character separator. -/
def splitOnChar (sep : Char) : List Char → List (List Char)
  | [] => [[]]
  | c :: t =>
    if c = sep then [] :: splitOnChar sep t
    else
      match splitOnChar sep t with
      | [] => [[c]]
      | h :: t' => (c :: h) :: t'

/-- Helper of `pyTokens`: split on whitespace runs, dropping empty pieces. -/
def splitWsAux : List Char → List Char → List (List Char)
  | acc, [] => if acc = [] then [] else [acc.reverse]
  | acc, c :: t =>
    if c.isWhitespace then
      if acc = [] then splitWsAux [] t else acc.reverse :: splitWsAux [] t
    else splitWsAux (c :: acc) t

/-- Python `line.strip().split()`: whitespace tokenization. -/
def pyTokens (s : String) : List String :=
  (splitWsAux [] s.data).map String.mk

/-- Python dictionaries as association lists in insertion order. -/
abbrev Dict (β : Type) := List (String × β)

/-- Dictionary lookup (`d[k]` for a present key). -/
def dlookup {β : Type} (k : String) : Dict β → Option β
  | [] => none
  | p :: t => if p.1 = k then some p.2 else dlookup k t

/-- Membership (`k in d`). -/
def dmem {β : Type} (k : String) (d : Dict β) : Bool := (dlookup k d).isSome

/-- Assignment `d[k] = v`: replace the value in place, or append a fresh
key at the end. -/
def dinsert {β : Type} (k : String) (v : β) : Dict β → Dict β
  | [] => [(k, v)]
  | p :: t => if p.1 = k then (k, v) :: t else p :: dinsert k v t

/-- Deletion `del d[k]` (keys are unique in a Python dict, so dropping the
first occurrence is exact). -/
def ddelete {β : Type} (k : String) : Dict β → Dict β
  | [] => []
  | p :: t => if p.1 = k then t else p :: ddelete k t

/-- The keys of a dictionary, in insertion order. -/
def dkeys {β : Type} (d : Dict β) : List String := d.map (·.1)

/-- Lexicographic comparison of character lists by code point, the Python
`<` on strings. -/
def charsLt : List Char → List Char → Bool
  | _, [] => false
  | [], _ :: _ => true
  | a :: s, b :: t =>
    if a.toNat < b.toNat then true
    else if a.toNat = b.toNat then charsLt s t
    else false

/-- Python `<` on strings. -/
def strLt (a b : String) : Bool := charsLt a.data b.data

/-- Stable insertion of an entry into a key-sorted association list. -/
def sortInsert {β : Type} (p : String × β) : Dict β → Dict β
  | [] => [p]
  | q :: t => if strLt q.1 p.1 then q :: sortInsert p t else p :: q :: t

/-- `sorted(d.items())`: entries sorted by key. -/
def dsort {β : Type} (d : Dict β) : Dict β := d.foldr sortInsert []

/-- Stable insertion of a string into a sorted list. -/
def insSorted (s : String) : List String → List String
  | [] => [s]
  | x :: t => if strLt x s then x :: insSorted s t else s :: x :: t

/-- `sorted(l)` for a list of strings. -/
def sortStrings (l : List String) : List String := l.foldr insSorted []

/-- An edge record: `cost` (float) and delivery `port` (int).  The `down`
flag placed in config-file rows is never read by the source and is
dropped here. -/
structure Edge where
  cost : Dec
  port : Int
deriving DecidableEq

/-- Observable callback effects (`callback_obj` calls in the source). -/
inductive Ev where
  | setEnabled (b : Bool)
  | info (msg : String)
  | broadcast (msg : Option String)
deriving DecidableEq

/-- The state of a `DVModel` instance. -/
structure DVState where
  myId : String
  initialTable : Dict Edge
  routingTables : Dict (Dict Edge)
  downNodes : List String
  enabled : Bool
deriving DecidableEq

/-- Unique keys, outer table and every row: true of every Python dict. -/
def wfTables (t : Dict (Dict Edge)) : Prop :=
  (dkeys t).Nodup ∧ ∀ p ∈ t, (dkeys p.2).Nodup

/-- `DVModel.__init__` (its trailing `reset()` call makes the routing table
exactly the local row). -/
def initState (myId : String) (initialTable : Dict Edge) : DVState :=
  { myId := myId
    initialTable := initialTable
    routingTables := [(myId, initialTable)]
    downNodes := []
    enabled := true }

/-- `DVModel.reset` (the default `silent=True` call: no console output).
Clears all rows, restores the local row from the initial configuration,
clears the down set; the `enabled` flag is not touched. -/
def reset (st : DVState) : DVState :=
  { st with routingTables := [(st.myId, st.initialTable)], downNodes := [] }

/-- One `dest:cost:port` entry of an UPDATE payload. -/
def entryChars (p : String × Edge) : List Char :=
  p.1.data ++ ':' :: floatReprChars p.2.cost ++ ':' :: intStrChars p.2.port

/-- Join character lists with a separator (`sep.join(...)`). -/
def intercalChar (sep : Char) : List (List Char) → List Char
  | [] => []
  | [x] => x
  | x :: y :: t => x ++ sep :: intercalChar sep (y :: t)

/-- The canonical route-list serialization: entries sorted by destination,
joined with commas. -/
def routesChars (row : Dict Edge) : List Char :=
  intercalChar ',' ((dsort row).map entryChars)

/-- The full canonical `UPDATE <id> <routes>` line. -/
def updateChars (id : String) (row : Dict Edge) : List Char :=
  ("UPDATE ".data) ++ id.data ++ ' ' :: routesChars row

/-- `DVModel.generate_update`. -/
def generate_update (st : DVState) (id : String) : Option String :=
  if dmem id st.routingTables then
    some (String.mk (updateChars id ((dlookup id st.routingTables).getD [])))
  else none

/-- `DVModel.get_neighbours`. -/
def get_neighbours (st : DVState) : Dict Edge :=
  if st.enabled = false then []
  else
    st.downNodes.foldl (fun r k => ddelete k r)
      (ddelete st.myId ((dlookup st.myId st.routingTables).getD []))

/-- `DVModel.change`.  Reading `self.routing_tables[self.my_id]` on the
`defaultdict` creates an empty local row when absent; the
`_recalculate_routes()` call computes and discards a Dijkstra run, with no
state effect, so only the broadcast is recorded. -/
def change (st : DVState) (nodeId : String) (newcost : Dec) : DVState × List Ev :=
  let tbls :=
    if dmem st.myId st.routingTables then st.routingTables
    else dinsert st.myId [] st.routingTables
  let row := (dlookup st.myId tbls).getD []
  match dlookup nodeId row with
  | none => ({ st with routingTables := tbls }, [])
  | some ed =>
    let st' := { st with
      routingTables := dinsert st.myId (dinsert nodeId ⟨newcost, ed.port⟩ row) tbls }
    (st', [Ev.broadcast (generate_update st' st.myId)])

/-- Python `set.add`. -/
def setAdd (x : String) (l : List String) : List String :=
  if x ∈ l then l else l ++ [x]

/-- Python `set.discard` (and `set.remove` on a present element). -/
def setErase (x : String) (l : List String) : List String :=
  l.filter fun y => y != x

/-- `DVModel.fail`. -/
def fail (st : DVState) (nodeId : String) : DVState × List Ev :=
  if nodeId = st.myId then
    ({ st with enabled := false, downNodes := setAdd nodeId st.downNodes },
      [Ev.setEnabled false, Ev.info ("Node " ++ st.myId ++ " is now DOWN.")])
  else ({ st with downNodes := setAdd nodeId st.downNodes }, [])

/-- `DVModel.recover`.  `none` models the uncaught `KeyError` raised by
`self.down_nodes.remove(node_id)` when the local node is not in the down
set (the flag/callback mutations made before the raise die with the
crashing thread and are not modelled further). -/
def recover (st : DVState) (nodeId : String) : Option (DVState × List Ev) :=
  if nodeId = st.myId then
    if nodeId ∈ st.downNodes then
      some ({ st with enabled := true, downNodes := setErase nodeId st.downNodes },
        [Ev.setEnabled true, Ev.info ("Node " ++ st.myId ++ " is now UP.")])
    else none
  else some ({ st with downNodes := setErase nodeId st.downNodes }, [])

/-- Lexicographic order on `(dist, node)`, as Python compares heap tuples. -/
def pqLt (x y : Dec × String) : Bool :=
  Dec.blt x.1 y.1 || (x.1 == y.1 && strLt x.2 y.2)

/-- The least element of a queue, scanning from a seed. -/
def pqMinFrom (x : Dec × String) : List (Dec × String) → Dec × String
  | [] => x
  | y :: t => if pqLt y x then pqMinFrom y t else pqMinFrom x t

/-- Remove the first occurrence of an element. -/
def pqRemove (x : Dec × String) : List (Dec × String) → List (Dec × String)
  | [] => []
  | y :: t => if y = x then t else y :: pqRemove x t

/-- `heapq.heappop`: remove and return the least `(dist, node)` pair. -/
def popMin : List (Dec × String) → Option ((Dec × String) × List (Dec × String))
  | [] => none
  | y :: t =>
    let m := pqMinFrom y t
    some (m, pqRemove m (y :: t))

/-- One relaxation: the body of `for neighbor, info in ...` in `_dijkstra`. -/
def relaxStep (down : List String) (cur : String) (d : Dec)
    (acc : List (Dec × String) × Dict Dec × Dict String) (p : String × Edge) :
    List (Dec × String) × Dict Dec × Dict String :=
  if p.1 ∈ down then acc
  else
    if (match dlookup p.1 acc.2.1 with
        | none => true
        | some old => Dec.blt (Dec.add d p.2.cost) old) then
      (acc.1 ++ [(Dec.add d p.2.cost, p.1)], dinsert p.1 (Dec.add d p.2.cost) acc.2.1,
        dinsert p.1 cur acc.2.2)
    else acc

/-- The main loop of `DVModel._dijkstra`, with explicit fuel (the Python
loop can diverge on a negative cycle; the claims hold for every fuel). -/
def dijkstraLoop (tbls : Dict (Dict Edge)) (down : List String) :
    Nat → List (Dec × String) → Dict Dec × Dict String → Dict Dec × Dict String
  | 0, _, s => s
  | fuel + 1, pq, s =>
    match popMin pq with
    | none => s
    | some (x, pq') =>
      if x.2 ∈ down then dijkstraLoop tbls down fuel pq' s
      else
        match dlookup x.2 tbls with
        | none => dijkstraLoop tbls down fuel pq' s
        | some row =>
          let r := row.foldl (relaxStep down x.2 x.1) (pq', s.1, s.2)
          dijkstraLoop tbls down fuel r.1 (r.2.1, r.2.2)

/-- `DVModel._dijkstra`: distances and predecessor map from `start`. -/
def dijkstra (st : DVState) (start : String) (fuel : Nat) :
    Dict Dec × Dict String :=
  dijkstraLoop st.routingTables st.downNodes fuel [(Dec.zero, start)]
    ([(start, Dec.zero)], [])

/-- The observable outcome of `query_path`: the `noPath` constructor is the
branch printing `No path exists from <start> to <dest>`. -/
inductive QueryResult where
  | noPath
  | path (pathString : String) (cost : Dec)
deriving DecidableEq

/-- The backtracking `while current in previous` loop of `query_path`,
with fuel (a cyclic predecessor map would make Python loop forever). -/
def pathWalk (prev : Dict String) : Nat → String → List String → List String
  | 0, _, acc => acc
  | fuel + 1, cur, acc =>
    match dlookup cur prev with
    | none => acc
    | some p => pathWalk prev fuel p (acc ++ [cur])

/-- `DVModel.query_path`. -/
def query_path (st : DVState) (start dest : String) (fuel : Nat) : QueryResult :=
  if start ∈ st.downNodes ∨ dest ∈ st.downNodes then .noPath
  else
    let r := dijkstra st start fuel
    match dlookup dest r.1 with
    | none => .noPath
    | some c => .path (String.join ((pathWalk r.2 fuel dest [] ++ [start]).reverse)) c

/-- One `<dest>:<cost>:<port>` config of `parse_update`'s loop;
`Except.error 3` models `sys.exit(3)`. -/
def parseRouteCfg (routes : Dict Edge) (cfg : List Char) : Except Nat (Dict Edge) :=
  match splitOnChar ':' cfg with
  | [dest, cs, ps] =>
    match parseFloatChars cs with
    | none => .error 3
    | some c =>
      match parseIntChars ps with
      | none => .error 3
      | some p => .ok (dinsert (String.mk dest) ⟨c, p⟩ routes)
  | _ => .error 3

/-- `DVModel.parse_update`. -/
def parse_update (args : List String) : Except Nat (String × Dict Edge) :=
  match args with
  | [nodeId, routesStr] =>
    ((splitOnChar ',' routesStr.data).foldlM parseRouteCfg []).map fun r => (nodeId, r)
  | _ => .error 3

/-- The `new_update` string built inside `DVModel.update`: the header with
a trailing space, each sorted entry followed by a comma, and the final
character stripped (`new_update[:-1]`). -/
def newUpdateChars (nodeId : String) (routes : Dict Edge) : List Char :=
  (("UPDATE ".data ++ nodeId.data ++ [' ']) ++
    ((dsort routes).map (fun p => entryChars p ++ [','])).flatten).dropLast

/-- `DVModel.update` — process a received UPDATE command.  The event list
records recomputation/broadcast side effects; the source triggers none
(`print_routing_table()` and `broadcast()` are commented out there). -/
def update (st : DVState) (args : List String) : Except Nat (DVState × List Ev) :=
  match parse_update args with
  | .error n => .error n
  | .ok pr =>
    if dmem pr.1 st.routingTables then
      if generate_update st pr.1 = some (String.mk (newUpdateChars pr.1 pr.2)) then
        .ok (st, [])
      else .ok ({ st with routingTables := dinsert pr.1 pr.2 st.routingTables }, [])
    else .ok ({ st with routingTables := dinsert pr.1 pr.2 st.routingTables }, [])

/-- The body of `merge`'s first loop: fold one of `node2`'s edges into
`node1`'s row, keeping the lower cost on an overlap. -/
def mergeRowStep (n1 : String) (tbls : Dict (Dict Edge)) (p : String × Edge) :
    Dict (Dict Edge) :=
  if p.1 = n1 then tbls
  else
    let row1 := (dlookup n1 tbls).getD []
    match dlookup p.1 row1 with
    | some ed =>
      if Dec.blt p.2.cost ed.cost then dinsert n1 (dinsert p.1 p.2 row1) tbls else tbls
    | none => dinsert n1 (dinsert p.1 p.2 row1) tbls

/-- The body of `merge`'s second loop: redirect one row's `node2` entry to
`node1`, keeping the lower cost, then drop the stale `node2` entry. -/
def redirectRow (n1 n2 : String) (routes : Dict Edge) : Dict Edge :=
  match dlookup n2 routes with
  | none => routes
  | some e2 =>
    match dlookup n1 routes with
    | some e1 =>
      if Dec.blt e2.cost e1.cost then ddelete n2 (dinsert n1 e2 routes)
      else ddelete n2 routes
    | none => ddelete n2 (dinsert n1 e2 routes)

/-- `DVModel.merge`. -/
def merge (st : DVState) (n1 n2 : String) : DVState × List Ev :=
  if dmem n1 st.routingTables && dmem n2 st.routingTables then
    ({ st with routingTables :=
        ((ddelete n2 (((dlookup n2 st.routingTables).getD []).foldl
          (mergeRowStep n1) st.routingTables)).map
          (fun p => (p.1, redirectRow n1 n2 p.2))) },
      [Ev.info "Graph merged successfully."])
  else (st, [])

/-- The filtering of one row in `split`: drop every edge crossing the two
halves (first half = `take (length / 2)` of the sorted node list). -/
def splitRow (nodes : List String) (nid : String) (row : Dict Edge) : Dict Edge :=
  row.filter fun q =>
    !(((nodes.take (nodes.length / 2)).contains nid &&
        (nodes.drop (nodes.length / 2)).contains q.1) ||
      ((nodes.drop (nodes.length / 2)).contains nid &&
        (nodes.take (nodes.length / 2)).contains q.1))

/-- `DVModel.split`. -/
def split (st : DVState) : DVState × List Ev :=
  ({ st with routingTables := (st.routingTables.map
      (fun p => (p.1, splitRow (sortStrings (dkeys st.routingTables)) p.1 p.2))) },
    [Ev.info "Graph partitioned successfully."])

/-- Typed administrative commands, the result dictionaries of
`main.parse_command`. -/
inductive Cmd where
  | update (src payload : String)
  | change (node : String) (cost : Dec)
  | fail (node : String)
  | recover (node : String)
  | query (node : String)
  | queryPath1 (dest : String)
  | queryPath2 (src dest : String)
  | merge (a b : String)
  | split
  | reset
  | cycleDetect
  | batchUpdate (file : String)
deriving DecidableEq

/-- The `^[A-Z]$` check of `check_node_id`. -/
def isNodeId (s : String) : Bool :=
  match s.data with
  | [c] => 65 ≤ c.toNat && c.toNat ≤ 90
  | _ => false

/-- `main.parse_command`: `ok none` for a blank line, `error 2` for every
malformed administrative command line (`exit(2)`). -/
def parse_command (line : String) : Except Nat (Option Cmd) :=
  match pyTokens line with
  | [] => .ok none
  | cmd :: rest =>
    if cmd = "UPDATE" then
      match rest with
      | [a, b] => .ok (some (.update a b))
      | _ => .error 2
    else if cmd = "CHANGE" then
      match rest with
      | [n, cs] =>
        if isNodeId n then
          match parseFloatChars cs.data with
          | some c => .ok (some (.change n c))
          | none => .error 2
        else .error 2
      | _ => .error 2
    else if cmd = "FAIL" then
      match rest with
      | [n] => if isNodeId n then .ok (some (.fail n)) else .error 2
      | _ => .error 2
    else if cmd = "RECOVER" then
      match rest with
      | [n] => if isNodeId n then .ok (some (.recover n)) else .error 2
      | _ => .error 2
    else if cmd = "QUERY" then
      match rest with
      | [n] => if isNodeId n then .ok (some (.query n)) else .error 2
      | ["PATH", d] => if isNodeId d then .ok (some (.queryPath1 d)) else .error 2
      | ["PATH", a, b] =>
        if isNodeId a then
          if isNodeId b then .ok (some (.queryPath2 a b)) else .error 2
        else .error 2
      | _ => .error 2
    else if cmd = "MERGE" then
      match rest with
      | [a, b] =>
        if isNodeId a then
          if isNodeId b then .ok (some (.merge a b)) else .error 2
        else .error 2
      | _ => .error 2
    else if cmd = "SPLIT" then
      match rest with
      | [] => .ok (some .split)
      | _ => .error 2
    else if cmd = "RESET" then
      match rest with
      | [] => .ok (some .reset)
      | _ => .error 2
    else if cmd = "CYCLE" then
      match rest with
      | ["DETECT"] => .ok (some .cycleDetect)
      | _ => .error 2
    else if cmd = "BATCH" then
      match rest with
      | ["UPDATE", f] => .ok (some (.batchUpdate f))
      | _ => .error 2
    else .error 2

/-- Keep the lower-cost of an optional current edge and a candidate, the
way `merge`'s strict `<` comparisons do. -/
def pickLower (c : Option Edge) (info : Edge) : Option Edge :=
  match c with
  | none => some info
  | some ed => if Dec.blt info.cost ed.cost then some info else some ed

/-- A node identifier has no row and appears in no row of the table. -/
def absentEverywhere (st : DVState) (n : String) : Prop :=
  dlookup n st.routingTables = none ∧ ∀ p ∈ st.routingTables, dlookup n p.2 = none

/-- The down-node exclusion invariant of a Dijkstra state: every distance
key other than the start, and both endpoints of every predecessor link,
avoid the down set. -/
def dijkInv (down : List String) (start : String) (s : Dict Dec × Dict String) : Prop :=
  (∀ p ∈ s.1, p.1 = start ∨ p.1 ∉ down) ∧ (∀ p ∈ s.2, p.1 ∉ down ∧ p.2 ∉ down)

/-- The value a current cost `a` ends up as when `merge` meets a candidate
cost `b` (replace only on strict `<`). -/
def lowerCost (a b : Dec) : Dec := if Dec.blt b a then b else a

/-- The self-loop cost `merge(n1, n2)` actually leaves in `n1`'s row when
`row1 = n1`'s row contains the edge `e12` to `n2`: the minimum of `e12`'s
cost, the cost of any `n2 → n2` self-entry of `row2 = n2`'s row, and the
cost of any pre-existing `n1 → n1` entry of `row1`. -/
def mergedSelfCost (n1 n2 : String) (row1 row2 : Dict Edge) (e12 : Edge) : Dec :=
  match dlookup n1 row1 with
  | some e11 =>
    lowerCost e11.cost
      (match dlookup n2 row2 with
       | some e22 => lowerCost e12.cost e22.cost
       | none => e12.cost)
  | none =>
    match dlookup n2 row2 with
    | some e22 => lowerCost e12.cost e22.cost
    | none => e12.cost

/-- A three-node example table used by concrete witnesses. -/
def mergeExampleSt : DVState where
  myId := "A"
  initialTable := []
  routingTables := [("A", [("B", ⟨⟨5, 0⟩, 1⟩)]),
    ("B", [("A", ⟨⟨5, 0⟩, 2⟩), ("C", ⟨⟨2, 0⟩, 3⟩)]), ("C", [("B", ⟨⟨2, 0⟩, 4⟩)])]
  downNodes := []
  enabled := true

/-- A table where `B`'s row carries a self-loop cheaper than `A`'s edge to
`B` (the C10 counterexample input). -/
def mergeLoopSt : DVState where
  myId := "A"
  initialTable := []
  routingTables := [("A", [("B", ⟨⟨5, 0⟩, 1⟩)]), ("B", [("B", ⟨⟨1, 0⟩, 2⟩)])]
  downNodes := []
  enabled := true

theorem dlookup_dinsert_self {β : Type} (k : String) (v : β) (d : Dict β) :
    dlookup k (dinsert k v d) = some v := by
  induction d with
  | nil => simp [dinsert, dlookup]
  | cons p t ih =>
    by_cases h : p.1 = k
    · simp [dinsert, h, dlookup]
    · simp [dinsert, h, dlookup, ih]

theorem dlookup_dinsert_ne {β : Type} {k k' : String} (v : β) (d : Dict β)
    (h : k' ≠ k) : dlookup k (dinsert k' v d) = dlookup k d := by
  induction d with
  | nil => simp [dinsert, dlookup, h]
  | cons p t ih =>
    by_cases hp : p.1 = k'
    · simp [dinsert, hp, dlookup, h, hp ▸ h]
    · by_cases hk : p.1 = k
      · simp [dinsert, hp, dlookup, hk, Ne.symm h]
      · simp [dinsert, hp, dlookup, hk, ih]

theorem mem_dinsert {β : Type} {k : String} {v : β} {d : Dict β} {p : String × β}
    (h : p ∈ dinsert k v d) : p = (k, v) ∨ p ∈ d := by
  induction d with
  | nil => simpa [dinsert] using h
  | cons q t ih =>
    by_cases hq : q.1 = k
    · simp only [dinsert, hq, if_pos rfl] at h
      rcases List.mem_cons.mp h with h | h
      · exact Or.inl h
      · exact Or.inr (List.mem_cons_of_mem _ h)
    · simp only [dinsert, hq, if_neg hq] at h
      rcases List.mem_cons.mp h with h | h
      · exact Or.inr (h ▸ List.mem_cons_self _ _)
      · rcases ih h with h | h
        · exact Or.inl h
        · exact Or.inr (List.mem_cons_of_mem _ h)

theorem dlookup_ddelete_ne {β : Type} {k k' : String} (d : Dict β) (h : k' ≠ k) :
    dlookup k (ddelete k' d) = dlookup k d := by
  induction d with
  | nil => simp [ddelete]
  | cons p t ih =>
    by_cases hp : p.1 = k'
    · simp [ddelete, hp, dlookup, h, hp ▸ h]
    · by_cases hk : p.1 = k
      · simp [ddelete, hp, dlookup, hk, Ne.symm h]
      · simp [ddelete, hp, dlookup, hk, ih]

theorem dlookup_none_iff {β : Type} {k : String} {d : Dict β} :
    dlookup k d = none ↔ k ∉ dkeys d := by
  induction d with
  | nil => simp [dlookup, dkeys]
  | cons p t ih =>
    by_cases hp : p.1 = k
    · simp [dlookup, hp, dkeys]
    · simp [dlookup, hp, dkeys, ih, Ne.symm hp]

theorem dlookup_ddelete_self {β : Type} {k : String} {d : Dict β}
    (h : (dkeys d).Nodup) : dlookup k (ddelete k d) = none := by
  induction d with
  | nil => simp [ddelete, dlookup]
  | cons p t ih =>
    simp only [dkeys, List.map_cons, List.nodup_cons] at h
    by_cases hp : p.1 = k
    · simp only [ddelete, if_pos hp]
      exact dlookup_none_iff.mpr (hp ▸ h.1)
    · simp [ddelete, hp, dlookup, ih h.2]

theorem mem_ddelete {β : Type} {k : String} {d : Dict β} {p : String × β}
    (h : p ∈ ddelete k d) : p ∈ d := by
  induction d with
  | nil => simpa [ddelete] using h
  | cons q t ih =>
    by_cases hq : q.1 = k
    · simp only [ddelete, if_pos hq] at h
      exact List.mem_cons_of_mem _ h
    · simp only [ddelete, if_neg hq] at h
      rcases List.mem_cons.mp h with h | h
      · exact h ▸ List.mem_cons_self _ _
      · exact List.mem_cons_of_mem _ (ih h)

theorem dlookup_mem {β : Type} {k : String} {v : β} {d : Dict β}
    (h : dlookup k d = some v) : (k, v) ∈ d := by
  induction d with
  | nil => simp [dlookup] at h
  | cons p t ih =>
    by_cases hp : p.1 = k
    · simp only [dlookup, if_pos hp] at h
      have hpv : p = (k, v) := Prod.ext hp (Option.some.inj h)
      exact hpv ▸ List.mem_cons_self _ _
    · simp only [dlookup, if_neg hp] at h
      exact List.mem_cons_of_mem _ (ih h)

theorem dkeys_dinsert_of_mem {β : Type} {k : String} {v : β} {d : Dict β}
    (h : dmem k d = true) : dkeys (dinsert k v d) = dkeys d := by
  induction d with
  | nil => simp [dmem, dlookup] at h
  | cons p t ih =>
    by_cases hp : p.1 = k
    · simp [dinsert, hp, dkeys]
    · simp only [dmem, dlookup, if_neg hp] at h
      have h2 := ih h
      simp only [dkeys] at h2 ⊢
      simp [dinsert, hp, h2]

theorem dkeys_ddelete_sublist {β : Type} (k : String) (d : Dict β) :
    (dkeys (ddelete k d)).Sublist (dkeys d) := by
  induction d with
  | nil => simp [ddelete]
  | cons p t ih =>
    by_cases hp : p.1 = k
    · simp only [ddelete, if_pos hp, dkeys, List.map_cons]
      exact List.sublist_cons_self _ _
    · simp only [ddelete, if_neg hp, dkeys, List.map_cons]
      exact List.Sublist.cons₂ _ ih

theorem nodup_dinsert {β : Type} {k : String} (v : β) {d : Dict β}
    (h : (dkeys d).Nodup) : (dkeys (dinsert k v d)).Nodup := by
  induction d with
  | nil => simp [dinsert, dkeys]
  | cons p t ih =>
    simp only [dkeys, List.map_cons, List.nodup_cons] at h
    by_cases hp : p.1 = k
    · simp only [dinsert, if_pos hp, dkeys, List.map_cons, List.nodup_cons]
      exact ⟨hp ▸ h.1, h.2⟩
    · simp only [dinsert, if_neg hp, dkeys, List.map_cons, List.nodup_cons]
      constructor
      · intro hmem
        rcases List.mem_map.mp hmem with ⟨q, hq, hq1⟩
        rcases mem_dinsert hq with h' | h'
        · apply hp
          rw [← hq1, h']
        · exact h.1 (hq1 ▸ List.mem_map_of_mem _ h')
      · exact ih h.2

theorem dlookup_map_values {β γ : Type} (k : String) (f : β → γ) (d : Dict β) :
    dlookup k (d.map fun p => (p.1, f p.2)) = (dlookup k d).map f := by
  induction d with
  | nil => simp [dlookup]
  | cons p t ih =>
    by_cases hp : p.1 = k
    · simp [dlookup, hp]
    · simp [dlookup, hp, ih]

theorem dlookup_filter_none {β : Type} {k : String} {d : Dict β}
    (f : String × β → Bool) (h : dlookup k d = none) :
    dlookup k (d.filter f) = none := by
  induction d with
  | nil => simp [dlookup]
  | cons p t ih =>
    by_cases hp : p.1 = k
    · simp [dlookup, hp] at h
    · simp only [dlookup, if_neg hp] at h
      by_cases hf : f p
      · simp [List.filter_cons, hf, dlookup, hp, ih h]
      · simp [List.filter_cons, hf, ih h]

theorem mem_setAdd {x m : String} (l : List String) :
    m ∈ setAdd x l ↔ m ∈ l ∨ m = x := by
  by_cases h : x ∈ l
  · simp only [setAdd, if_pos h]
    constructor
    · exact Or.inl
    · rintro (hm | rfl)
      · exact hm
      · exact h
  · simp [setAdd, if_neg h]


theorem parseRouteCfg_error {routes : Dict Edge} {cfg : List Char} {n : Nat}
    (h : parseRouteCfg routes cfg = .error n) : n = 3 := by
  unfold parseRouteCfg at h
  repeat' split at h
  all_goals simp_all

theorem foldCfg_error : ∀ (l : List (List Char)) (acc : Dict Edge) {n : Nat},
    List.foldlM parseRouteCfg acc l = .error n → n = 3 := by
  intro l
  induction l with
  | nil => intro acc n h; exact Except.noConfusion h
  | cons c t ih =>
    intro acc n h
    rw [show List.foldlM parseRouteCfg acc (c :: t) =
        parseRouteCfg acc c >>= (fun a => List.foldlM parseRouteCfg a t) from rfl] at h
    cases hc : parseRouteCfg acc c with
    | error m =>
      rw [hc] at h
      rw [show (Except.error m : Except Nat (Dict Edge)) >>=
          (fun a => List.foldlM parseRouteCfg a t) = Except.error m from rfl] at h
      exact (Except.error.inj h) ▸ parseRouteCfg_error hc
    | ok acc' =>
      rw [hc] at h
      rw [show (Except.ok acc' : Except Nat (Dict Edge)) >>=
          (fun a => List.foldlM parseRouteCfg a t) =
          List.foldlM parseRouteCfg acc' t from rfl] at h
      exact ih acc' h

theorem parse_update_error : ∀ {args : List String} {n : Nat},
    parse_update args = .error n → n = 3 := by
  intro args n h
  rcases args with _ | ⟨a, _ | ⟨b, _ | ⟨c, t⟩⟩⟩
  · rw [show parse_update [] = Except.error 3 from rfl] at h
    exact (Except.error.inj h).symm
  · rw [show parse_update [a] = Except.error 3 from rfl] at h
    exact (Except.error.inj h).symm
  · simp only [parse_update] at h
    cases hf : List.foldlM parseRouteCfg [] (splitOnChar ',' b.data) with
    | error m =>
      rw [hf] at h
      rw [show (Except.error m : Except Nat (Dict Edge)).map
          (fun r => (a, r)) = Except.error m from rfl] at h
      exact (Except.error.inj h) ▸ foldCfg_error _ _ hf
    | ok r =>
      rw [hf] at h
      rw [show (Except.ok r : Except Nat (Dict Edge)).map
          (fun r => (a, r)) = Except.ok (a, r) from rfl] at h
      exact Except.noConfusion h
  · rw [show parse_update (a :: b :: c :: t) = Except.error 3 from rfl] at h
    exact (Except.error.inj h).symm

theorem update_error {st : DVState} {args : List String} {n : Nat}
    (h : update st args = .error n) : n = 3 := by
  unfold update at h
  split at h
  · next m heq =>
    injection h with h2
    exact h2 ▸ parse_update_error heq
  · next pr heq =>
    split at h
    · split at h <;> simp at h
    · simp at h

/-- C2: a malformed UPDATE wire payload.  The payload parser
(`DVModel.parse_update`) can only ever exit with status 3 — for wrong
argument arity, wrong entry arity, or a non-numeric cost/port — and so can
the full `update` processing of the model; but a raw `UPDATE` line with
the wrong token count is rejected earlier, by `main.parse_command`, with
exit status 2 (see the counterexample), not 3 as the claim states. -/
theorem claim_c2 (line a b : String) (st : DVState) (args : List String) (n : Nat) :
    (parse_update args = .error n → n = 3) ∧
    (pyTokens line = ["UPDATE", a, b] → parse_command line = .ok (some (Cmd.update a b))) ∧
    (update st args = .error n → n = 3) := by
  refine ⟨fun h => parse_update_error h, fun h => ?_, fun h => update_error h⟩
  unfold parse_command
  rw [h]
  rfl

/-- C2 counterexample: the wire payload `UPDATE A` (wrong token arity) is
processed by `parse_command`, which terminates the process with exit
status 2, not 3. -/
theorem claim_c2_cex : parse_command "UPDATE A" = .error 2 ∧ (2 : Nat) ≠ 3 :=
  ⟨rfl, by decide⟩

/-- C3 (amended): an accepted CHANGE stores exactly the parsed cost for the
named neighbor, preserving the stored port — the code performs no range
validation, so any float cost (negative included) and any int port can end
up in an Edge. -/
theorem claim_c3 (st : DVState) (nodeId : String) (q : Dec) (ed : Edge)
    (hmem : dmem st.myId st.routingTables = true)
    (h : dlookup nodeId ((dlookup st.myId st.routingTables).getD []) = some ed) :
    dlookup nodeId ((dlookup st.myId (change st nodeId q).1.routingTables).getD [])
      = some ⟨q, ed.port⟩ := by
  simp only [change, hmem, if_true]
  rw [h]
  simp [dlookup_dinsert_self]

theorem claim_c3_witness :
    dlookup "B" ((dlookup "A" (change (initState "A" [("B", ⟨⟨4, 0⟩, 2001⟩)])
      "B" ⟨-1, 0⟩).1.routingTables).getD []) = some ⟨⟨-1, 0⟩, 2001⟩ :=
  claim_c3 (initState "A" [("B", ⟨⟨4, 0⟩, 2001⟩)]) "B" ⟨-1, 0⟩ ⟨⟨4, 0⟩, 2001⟩
    (by decide) (by decide)

/-- C3 counterexample: `CHANGE B -1.0` is accepted by the command parser
and stores an edge with cost `-1.0 < 0`; an UPDATE entry with port `70000`
(outside 1..65535) is likewise accepted and stored verbatim. -/
theorem claim_c3_cex :
    parse_command "CHANGE B -1.0" = .ok (some (Cmd.change "B" ⟨-1, 0⟩)) ∧
    dlookup "B" ((dlookup "A" (change (initState "A" [("B", ⟨⟨4, 0⟩, 2001⟩)])
      "B" ⟨-1, 0⟩).1.routingTables).getD []) = some ⟨⟨-1, 0⟩, 2001⟩ ∧
    Dec.blt ⟨-1, 0⟩ Dec.zero = true ∧
    parse_update ["A", "B:1.0:70000"] = .ok ("A", [("B", ⟨⟨1, 0⟩, 70000⟩)]) ∧
    ¬ ((70000 : Int) ≤ 65535) :=
  ⟨rfl, rfl, rfl, rfl, by decide⟩

theorem relax_inv {down : List String} {start : String} (cur : String) (d : Dec)
    (hcur : cur ∉ down) :
    ∀ (row : List (String × Edge)) (acc : List (Dec × String) × Dict Dec × Dict String),
      dijkInv down start (acc.2.1, acc.2.2) →
      dijkInv down start ((row.foldl (relaxStep down cur d) acc).2.1,
        (row.foldl (relaxStep down cur d) acc).2.2) := by
  intro row
  induction row with
  | nil => intro acc h; exact h
  | cons p t ih =>
    intro acc h
    rw [List.foldl_cons]
    apply ih
    by_cases hp : p.1 ∈ down
    · simpa [relaxStep, hp] using h
    · simp only [relaxStep, if_neg hp]
      split
      · refine ⟨?_, ?_⟩
        · intro x hx
          rcases mem_dinsert hx with rfl | hx'
          · exact Or.inr hp
          · exact h.1 x hx'
        · intro x hx
          rcases mem_dinsert hx with rfl | hx'
          · exact ⟨hp, hcur⟩
          · exact h.2 x hx'
      · exact h

theorem dijkstraLoop_inv (tbls : Dict (Dict Edge)) (down : List String) (start : String) :
    ∀ (fuel : Nat) (pq : List (Dec × String)) (s : Dict Dec × Dict String),
      dijkInv down start s → dijkInv down start (dijkstraLoop tbls down fuel pq s) := by
  intro fuel
  induction fuel with
  | zero => intro pq s h; exact h
  | succ f ih =>
    intro pq s h
    rw [dijkstraLoop]
    cases hm : popMin pq with
    | none => exact h
    | some x =>
      obtain ⟨y, pq'⟩ := x
      by_cases hd : y.2 ∈ down
      · simp only [hd, if_true]
        exact ih pq' s h
      · simp only [hd, if_false]
        cases hrow : dlookup y.2 tbls with
        | none => exact ih pq' s h
        | some row =>
          apply ih
          exact relax_inv y.2 y.1 hd row (pq', s.1, s.2) h

theorem dijkstra_inv (st : DVState) (start : String) (fuel : Nat) :
    dijkInv st.downNodes start (dijkstra st start fuel) := by
  apply dijkstraLoop_inv
  constructor
  · intro p hp
    rw [List.mem_singleton] at hp
    subst hp
    exact Or.inl rfl
  · intro p hp
    simp at hp

/-- C4: no down node other than the source appears in the Dijkstra distance
mapping, every predecessor link recorded for path reconstruction has both
endpoints outside the down set (no edge into or out of a down node is
used), and `query_path` reports no-path exactly when the start or the
destination is down or the destination is absent from the distances. -/
theorem claim_c4 (st : DVState) (start dest : String) (fuel : Nat) :
    (∀ p ∈ (dijkstra st start fuel).1, p.1 = start ∨ p.1 ∉ st.downNodes) ∧
    (∀ p ∈ (dijkstra st start fuel).2, p.1 ∉ st.downNodes ∧ p.2 ∉ st.downNodes) ∧
    (query_path st start dest fuel = QueryResult.noPath ↔
      (start ∈ st.downNodes ∨ dest ∈ st.downNodes ∨
        dlookup dest (dijkstra st start fuel).1 = none)) := by
  obtain ⟨h1, h2⟩ := dijkstra_inv st start fuel
  refine ⟨h1, h2, ?_⟩
  by_cases hd : start ∈ st.downNodes ∨ dest ∈ st.downNodes
  · simp only [query_path, hd, if_true]
    tauto
  · simp only [query_path, hd, if_false]
    cases h : dlookup dest (dijkstra st start fuel).1 with
    | none => simp [h, hd]
    | some c =>
      simp only [h]
      constructor
      · intro hq
        exact QueryResult.noConfusion hq
      · intro hq
        rcases hq with hq | hq | hq
        · exact absurd (Or.inl hq) hd
        · exact absurd (Or.inr hq) hd
        · exact Option.noConfusion hq

/-- C1 (the behavior the spec mandates, violated by the code): when the
local node is not in the down set, `recover(self)` raises an uncaught
`KeyError` (`down_nodes.remove`), modelled as `none`, instead of the
non-raising no-op the specification requires. -/
theorem claim_c1 (st : DVState) (h : st.myId ∉ st.downNodes) :
    recover st st.myId = none := by
  simp [recover, h]

theorem claim_c1_witness : recover (initState "A" [("B", ⟨⟨4, 0⟩, 2001⟩)]) "A" = none :=
  claim_c1 (initState "A" [("B", ⟨⟨4, 0⟩, 2001⟩)]) (by decide)

/-- C8: failing a remote node only adds it to the down set — the routing
table, the enabled flag, the identity and the initial configuration are
untouched, no callback fires, and pathfinding thereafter excludes the
failed node (it can appear in a distance mapping only as the source). -/
theorem claim_c8 (st : DVState) (nodeId : String) (h : nodeId ≠ st.myId) :
    (fail st nodeId).1.routingTables = st.routingTables ∧
    (fail st nodeId).1.enabled = st.enabled ∧
    (fail st nodeId).1.myId = st.myId ∧
    (fail st nodeId).1.initialTable = st.initialTable ∧
    (fail st nodeId).2 = [] ∧
    (∀ m, m ∈ (fail st nodeId).1.downNodes ↔ m ∈ st.downNodes ∨ m = nodeId) ∧
    (∀ fuel s, ∀ p ∈ (dijkstra (fail st nodeId).1 s fuel).1, p.1 = s ∨ p.1 ≠ nodeId) := by
  have hf : fail st nodeId = ({ st with downNodes := setAdd nodeId st.downNodes }, []) := by
    simp [fail, h]
  refine ⟨by rw [hf], by rw [hf], by rw [hf], by rw [hf], by rw [hf], ?_, ?_⟩
  · intro m
    rw [hf]
    exact mem_setAdd _
  · intro fuel s p hp
    rcases (dijkstra_inv (fail st nodeId).1 s fuel).1 p hp with h1 | h1
    · exact Or.inl h1
    · right
      intro hcontra
      apply h1
      rw [hf, hcontra]
      exact (mem_setAdd _).mpr (Or.inr rfl)

theorem claim_c8_witness :
    (fail (initState "A" [("B", ⟨⟨4, 0⟩, 2001⟩)]) "B").1.routingTables
        = (initState "A" [("B", ⟨⟨4, 0⟩, 2001⟩)]).routingTables ∧
    (fail (initState "A" [("B", ⟨⟨4, 0⟩, 2001⟩)]) "B").1.enabled
        = (initState "A" [("B", ⟨⟨4, 0⟩, 2001⟩)]).enabled ∧
    (fail (initState "A" [("B", ⟨⟨4, 0⟩, 2001⟩)]) "B").1.myId
        = (initState "A" [("B", ⟨⟨4, 0⟩, 2001⟩)]).myId ∧
    (fail (initState "A" [("B", ⟨⟨4, 0⟩, 2001⟩)]) "B").1.initialTable
        = (initState "A" [("B", ⟨⟨4, 0⟩, 2001⟩)]).initialTable ∧
    (fail (initState "A" [("B", ⟨⟨4, 0⟩, 2001⟩)]) "B").2 = [] ∧
    (∀ m, m ∈ (fail (initState "A" [("B", ⟨⟨4, 0⟩, 2001⟩)]) "B").1.downNodes ↔
      m ∈ (initState "A" [("B", ⟨⟨4, 0⟩, 2001⟩)]).downNodes ∨ m = "B") ∧
    (∀ fuel s, ∀ p ∈ (dijkstra (fail (initState "A" [("B", ⟨⟨4, 0⟩, 2001⟩)]) "B").1 s fuel).1,
      p.1 = s ∨ p.1 ≠ "B") :=
  claim_c8 (initState "A" [("B", ⟨⟨4, 0⟩, 2001⟩)]) "B" (by decide)

/-- C9: `reset` never touches the enabled flag; after `fail(self)` then
`reset()`, the down set is cleared and the local row is restored from the
original configuration, but the node stays broadcast-disabled, so
`get_neighbours` returns the empty mapping. -/
theorem claim_c9 (st : DVState) :
    (∀ st0 : DVState, (reset st0).enabled = st0.enabled) ∧
    (reset (fail st st.myId).1).enabled = false ∧
    (reset (fail st st.myId).1).downNodes = [] ∧
    dlookup st.myId (reset (fail st st.myId).1).routingTables = some st.initialTable ∧
    get_neighbours (reset (fail st st.myId).1) = [] := by
  refine ⟨fun st0 => rfl, ?_, ?_, ?_, ?_⟩
  · simp [reset, fail]
  · simp [reset]
  · simp [reset, fail, dlookup]
  · simp [get_neighbours, reset, fail]

theorem dmem_iff {β : Type} {k : String} {d : Dict β} : dmem k d = true ↔ k ∈ dkeys d := by
  unfold dmem
  cases h : dlookup k d with
  | none => simp [dlookup_none_iff.mp h]
  | some v =>
    simp only [Option.isSome_some, true_iff]
    exact List.mem_map_of_mem _ (dlookup_mem h)

theorem mergeRowStep_facts {n1 : String} {tbls : Dict (Dict Edge)} (q : String × Edge)
    (hm : dmem n1 tbls = true) (hr : ∀ p ∈ tbls, (dkeys p.2).Nodup) :
    dkeys (mergeRowStep n1 tbls q) = dkeys tbls ∧
    (∀ p ∈ mergeRowStep n1 tbls q, (dkeys p.2).Nodup) := by
  obtain ⟨r, hrr⟩ := Option.isSome_iff_exists.mp hm
  have hrn : (dkeys r).Nodup := hr _ (dlookup_mem hrr)
  have hins : ∀ v : Dict Edge, (dkeys v).Nodup →
      dkeys (dinsert n1 v tbls) = dkeys tbls ∧
      (∀ p ∈ dinsert n1 v tbls, (dkeys p.2).Nodup) := by
    intro v hv
    refine ⟨dkeys_dinsert_of_mem hm, ?_⟩
    intro p hp
    rcases mem_dinsert hp with rfl | hp'
    · exact hv
    · exact hr _ hp'
  unfold mergeRowStep
  by_cases hq : q.1 = n1
  · rw [if_pos hq]
    exact ⟨rfl, hr⟩
  · rw [if_neg hq, hrr]
    simp only [Option.getD_some]
    split
    · split
      · exact hins _ (nodup_dinsert _ hrn)
      · exact ⟨rfl, hr⟩
    · exact hins _ (nodup_dinsert _ hrn)

theorem mergeFold_facts {n1 : String} :
    ∀ (l : List (String × Edge)) (tbls : Dict (Dict Edge)),
      dmem n1 tbls = true → (∀ p ∈ tbls, (dkeys p.2).Nodup) →
      dkeys (l.foldl (mergeRowStep n1) tbls) = dkeys tbls ∧
      (∀ p ∈ l.foldl (mergeRowStep n1) tbls, (dkeys p.2).Nodup) := by
  intro l
  induction l with
  | nil => exact fun tbls _ hr => ⟨rfl, hr⟩
  | cons q t ih =>
    intro tbls hm hr
    rw [List.foldl_cons]
    obtain ⟨hk, hrows⟩ := mergeRowStep_facts q hm hr
    have hm' : dmem n1 (mergeRowStep n1 tbls q) = true := by
      rw [dmem_iff, hk, ← dmem_iff]
      exact hm
    obtain ⟨hk2, hrows2⟩ := ih (mergeRowStep n1 tbls q) hm' hrows
    exact ⟨hk2.trans hk, hrows2⟩

theorem redirect_removes {n1 n2 : String} {r : Dict Edge} (h : (dkeys r).Nodup) :
    dlookup n2 (redirectRow n1 n2 r) = none := by
  unfold redirectRow
  split
  · next hl => exact hl
  · next e2 hl =>
    split
    · next e1 h1 =>
      split
      · exact dlookup_ddelete_self (nodup_dinsert _ h)
      · exact dlookup_ddelete_self h
    · next h1 => exact dlookup_ddelete_self (nodup_dinsert _ h)

theorem dlookup_map_keydep {β γ : Type} (k : String) (f : String → β → γ) (d : Dict β) :
    dlookup k (d.map fun p => (p.1, f p.1 p.2)) = (dlookup k d).map (f k) := by
  induction d with
  | nil => simp [dlookup]
  | cons p t ih =>
    by_cases hp : p.1 = k
    · simp [dlookup, hp]
    · simp [dlookup, hp, ih]

theorem merge_absent {st : DVState} {n1 n2 : String}
    (hw : wfTables st.routingTables)
    (h1 : dmem n1 st.routingTables = true) (h2 : dmem n2 st.routingTables = true) :
    absentEverywhere (merge st n1 n2).1 n2 := by
  unfold merge
  simp only [h1, h2, Bool.and_self, if_true]
  obtain ⟨hkeys, hrows⟩ :=
    mergeFold_facts ((dlookup n2 st.routingTables).getD []) st.routingTables h1 hw.2
  have hnd1 : (dkeys (((dlookup n2 st.routingTables).getD []).foldl
      (mergeRowStep n1) st.routingTables)).Nodup := by
    rw [hkeys]
    exact hw.1
  refine ⟨?_, ?_⟩
  · rw [dlookup_map_values]
    rw [dlookup_ddelete_self hnd1]
    rfl
  · intro p hp
    rcases List.mem_map.mp hp with ⟨q, hq, rfl⟩
    exact redirect_removes (hrows q (mem_ddelete hq))

theorem split_pres_absent {st : DVState} {n : String}
    (h : absentEverywhere st n) : absentEverywhere (split st).1 n := by
  obtain ⟨h1, h2⟩ := h
  unfold split
  refine ⟨?_, ?_⟩
  · rw [dlookup_map_keydep n (splitRow (sortStrings (dkeys st.routingTables)))]
    rw [h1]
    rfl
  · intro p hp
    rcases List.mem_map.mp hp with ⟨q, hq, rfl⟩
    exact dlookup_filter_none _ (h2 q hq)

/-- C7: merging `n2` into `n1` removes `n2`'s row and every edge keyed `n2`
from every remaining row; a following `split()` leaves `n2` absent, and in
general `split` never resurrects an absent identifier. -/
theorem claim_c7 (st : DVState) (n1 n2 : String)
    (hw : wfTables st.routingTables)
    (h1 : dmem n1 st.routingTables = true) (h2 : dmem n2 st.routingTables = true) :
    absentEverywhere (merge st n1 n2).1 n2 ∧
    absentEverywhere (split (merge st n1 n2).1).1 n2 ∧
    (∀ st' : DVState, absentEverywhere st' n2 → absentEverywhere (split st').1 n2) := by
  have hm := merge_absent hw h1 h2
  exact ⟨hm, split_pres_absent hm, fun st' h => split_pres_absent h⟩

theorem claim_c7_witness :
    absentEverywhere (merge mergeExampleSt "A" "B").1 "B" ∧
    absentEverywhere (split (merge mergeExampleSt "A" "B").1).1 "B" ∧
    (∀ st' : DVState, absentEverywhere st' "B" → absentEverywhere (split st').1 "B") :=
  claim_c7 mergeExampleSt "A" "B" (by constructor <;> decide) (by decide) (by decide)

theorem filter_key_nodup {β : Type} {k : String} :
    ∀ {l : List (String × β)}, (dkeys l).Nodup →
      l.filter (fun p => p.1 == k) =
        (match dlookup k l with | some v => [(k, v)] | none => []) := by
  intro l
  induction l with
  | nil => intro _; simp [dlookup]
  | cons p t ih =>
    intro h
    obtain ⟨a, b⟩ := p
    simp only [dkeys, List.map_cons, List.nodup_cons] at h
    by_cases hp : a = k
    · subst hp
      have ht : t.filter (fun q => q.1 == a) = [] := by
        rw [List.filter_eq_nil_iff]
        intro q hq
        simp only [beq_iff_eq]
        intro hqk
        exact h.1 (hqk ▸ List.mem_map_of_mem _ hq)
      simp [List.filter_cons, dlookup, ht]
    · simp only [List.filter_cons]
      have hbeq : ((a, b).1 == k) = false := by
        simp [hp]
      rw [hbeq]
      simp only [Bool.false_eq_true, if_false]
      have hl : dlookup k ((a, b) :: t) = dlookup k t := by
        simp [dlookup, hp]
      rw [hl]
      exact ih h.2

theorem mergeRowStep_eq {n1 : String} {tbls : Dict (Dict Edge)} {r : Dict Edge}
    (q : String × Edge) (hq1 : ¬ q.1 = n1) (h : dlookup n1 tbls = some r) :
    mergeRowStep n1 tbls q =
      (match dlookup q.1 r with
       | some ed =>
         if Dec.blt q.2.cost ed.cost then dinsert n1 (dinsert q.1 q.2 r) tbls else tbls
       | none => dinsert n1 (dinsert q.1 q.2 r) tbls) := by
  unfold mergeRowStep
  rw [if_neg hq1, h]
  rfl

theorem mergeFold_spec {n1 n2 : String} (hne : n1 ≠ n2) :
    ∀ (l : List (String × Edge)) (tbls : Dict (Dict Edge)) (r : Dict Edge),
      dlookup n1 tbls = some r →
      ∃ r', dlookup n1 (l.foldl (mergeRowStep n1) tbls) = some r' ∧
        dlookup n1 r' = dlookup n1 r ∧
        dlookup n2 r' = (l.filter (fun p => p.1 == n2)).foldl
          (fun c p => pickLower c p.2) (dlookup n2 r) := by
  intro l
  induction l with
  | nil => intro tbls r h; exact ⟨r, h, rfl, rfl⟩
  | cons q t ih =>
    intro tbls r h
    rw [List.foldl_cons]
    by_cases hq1 : q.1 = n1
    · have hstep : mergeRowStep n1 tbls q = tbls := by
        unfold mergeRowStep
        rw [if_pos hq1]
      have hflt : (q :: t).filter (fun p => p.1 == n2) =
          t.filter (fun p => p.1 == n2) := by
        simp [List.filter_cons, hq1, hne]
      rw [hstep, hflt]
      exact ih tbls r h
    · rw [mergeRowStep_eq q hq1 h]
      cases hl : dlookup q.1 r with
      | some ed =>
        dsimp only
        by_cases hblt : Dec.blt q.2.cost ed.cost = true
        · rw [if_pos hblt]
          obtain ⟨r', h1', h2', h3'⟩ := ih (dinsert n1 (dinsert q.1 q.2 r) tbls)
            (dinsert q.1 q.2 r) (dlookup_dinsert_self _ _ _)
          refine ⟨r', h1', ?_, ?_⟩
          · rw [h2', dlookup_dinsert_ne _ _ hq1]
          · rw [h3']
            by_cases hq2 : q.1 = n2
            · have hb : dlookup n2 (dinsert q.1 q.2 r) = some q.2 := by
                rw [← hq2]
                exact dlookup_dinsert_self _ _ _
              rw [hb]
              have hfl : (q :: t).filter (fun p => p.1 == n2) =
                  q :: t.filter (fun p => p.1 == n2) := by
                simp [List.filter_cons, hq2]
              rw [hfl, List.foldl_cons]
              have hpl : pickLower (dlookup n2 r) q.2 = some q.2 := by
                rw [← hq2, hl]
                simp [pickLower, hblt]
              rw [hpl]
            · have hb : dlookup n2 (dinsert q.1 q.2 r) = dlookup n2 r :=
                dlookup_dinsert_ne _ _ hq2
              rw [hb]
              have hfl : (q :: t).filter (fun p => p.1 == n2) =
                  t.filter (fun p => p.1 == n2) := by
                simp [List.filter_cons, hq2]
              rw [hfl]
        · rw [if_neg hblt]
          obtain ⟨r', h1', h2', h3'⟩ := ih tbls r h
          refine ⟨r', h1', h2', ?_⟩
          rw [h3']
          by_cases hq2 : q.1 = n2
          · have hfl : (q :: t).filter (fun p => p.1 == n2) =
                q :: t.filter (fun p => p.1 == n2) := by
              simp [List.filter_cons, hq2]
            rw [hfl, List.foldl_cons]
            have hpl : pickLower (dlookup n2 r) q.2 = dlookup n2 r := by
              rw [← hq2, hl]
              simp [pickLower, hblt]
            rw [hpl]
          · have hfl : (q :: t).filter (fun p => p.1 == n2) =
                t.filter (fun p => p.1 == n2) := by
              simp [List.filter_cons, hq2]
            rw [hfl]
      | none =>
        dsimp only
        obtain ⟨r', h1', h2', h3'⟩ := ih (dinsert n1 (dinsert q.1 q.2 r) tbls)
          (dinsert q.1 q.2 r) (dlookup_dinsert_self _ _ _)
        refine ⟨r', h1', ?_, ?_⟩
        · rw [h2', dlookup_dinsert_ne _ _ hq1]
        · rw [h3']
          by_cases hq2 : q.1 = n2
          · have hb : dlookup n2 (dinsert q.1 q.2 r) = some q.2 := by
              rw [← hq2]
              exact dlookup_dinsert_self _ _ _
            rw [hb]
            have hfl : (q :: t).filter (fun p => p.1 == n2) =
                q :: t.filter (fun p => p.1 == n2) := by
              simp [List.filter_cons, hq2]
            rw [hfl, List.foldl_cons]
            have hpl : pickLower (dlookup n2 r) q.2 = some q.2 := by
              rw [← hq2, hl]
              rfl
            rw [hpl]
          · have hb : dlookup n2 (dinsert q.1 q.2 r) = dlookup n2 r :=
              dlookup_dinsert_ne _ _ hq2
            rw [hb]
            have hfl : (q :: t).filter (fun p => p.1 == n2) =
                t.filter (fun p => p.1 == n2) := by
              simp [List.filter_cons, hq2]
            rw [hfl]

theorem redirect_n1_value {n1 n2 : String} (hne : n1 ≠ n2) {r' : Dict Edge} {eB : Edge}
    (hB : dlookup n2 r' = some eB) :
    dlookup n1 (redirectRow n1 n2 r') =
      (match dlookup n1 r' with
       | some e1 => if Dec.blt eB.cost e1.cost then some eB else some e1
       | none => some eB) := by
  unfold redirectRow
  rw [hB]
  cases h1 : dlookup n1 r' with
  | some e1 =>
    dsimp only
    by_cases hb : Dec.blt eB.cost e1.cost = true
    · rw [if_pos hb, if_pos hb, dlookup_ddelete_ne _ (Ne.symm hne)]
      exact dlookup_dinsert_self _ _ _
    · rw [if_neg hb, if_neg hb, dlookup_ddelete_ne _ (Ne.symm hne)]
      exact h1
  | none =>
    dsimp only
    rw [dlookup_ddelete_ne _ (Ne.symm hne)]
    exact dlookup_dinsert_self _ _ _

/-- C10 (amended): when `n1 ≠ n2`, both rows are present, and `n1`'s row
has an edge `e12` to `n2`, `merge(n1, n2)` leaves in `n1`'s row a
self-loop entry keyed `n1` whose cost is the minimum of `e12`'s cost, any
`n2 → n2` self-entry cost in `n2`'s row, and any pre-existing `n1 → n1`
entry cost (`mergedSelfCost`) — the original claim's formula omits the
`n2` self-entry contribution and fails when that entry is cheaper. -/
theorem claim_c10 (st : DVState) (n1 n2 : String) (row1 row2 : Dict Edge) (e12 : Edge)
    (hne : n1 ≠ n2)
    (h1 : dlookup n1 st.routingTables = some row1)
    (h2 : dlookup n2 st.routingTables = some row2)
    (hnd : (dkeys row2).Nodup)
    (h12 : dlookup n2 row1 = some e12) :
    ∃ ed : Edge,
      dlookup n1 ((dlookup n1 (merge st n1 n2).1.routingTables).getD []) = some ed ∧
      ed.cost = mergedSelfCost n1 n2 row1 row2 e12 := by
  have hm1 : dmem n1 st.routingTables = true := by
    rw [dmem, h1]
    rfl
  have hm2 : dmem n2 st.routingTables = true := by
    rw [dmem, h2]
    rfl
  have hrow2 : (dlookup n2 st.routingTables).getD [] = row2 := by
    rw [h2]
    rfl
  unfold merge
  rw [hm1, hm2]
  simp only [Bool.and_self, if_true]
  rw [hrow2]
  obtain ⟨r', hr1, hr2, hr3⟩ := mergeFold_spec hne row2 st.routingTables row1 h1
  have hdd : dlookup n1 (ddelete n2 (row2.foldl (mergeRowStep n1) st.routingTables))
      = some r' := by
    rw [dlookup_ddelete_ne _ (Ne.symm hne)]
    exact hr1
  rw [dlookup_map_values, hdd]
  simp only [Option.map_some', Option.getD_some]
  rw [filter_key_nodup hnd, h12] at hr3
  have hrB : ∃ eB : Edge, dlookup n2 r' = some eB ∧
      eB.cost = (match dlookup n2 row2 with
        | some e22 => lowerCost e12.cost e22.cost
        | none => e12.cost) := by
    cases h22 : dlookup n2 row2 with
    | some e22 =>
      rw [h22] at hr3
      simp only [List.foldl_cons, List.foldl_nil] at hr3
      by_cases hb : Dec.blt e22.cost e12.cost = true
      · refine ⟨e22, ?_, by simp [lowerCost, hb]⟩
        rw [hr3]
        simp [pickLower, hb]
      · refine ⟨e12, ?_, by simp [lowerCost, hb]⟩
        rw [hr3]
        simp [pickLower, hb]
    | none =>
      rw [h22] at hr3
      simp only [List.foldl_nil] at hr3
      exact ⟨e12, hr3, rfl⟩
  obtain ⟨eB, hB, hBc⟩ := hrB
  rw [redirect_n1_value hne hB, hr2]
  cases h11 : dlookup n1 row1 with
  | some e11 =>
    dsimp only
    by_cases hb : Dec.blt eB.cost e11.cost = true
    · refine ⟨eB, by rw [if_pos hb], ?_⟩
      unfold mergedSelfCost
      rw [h11]
      dsimp only
      rw [← hBc]
      unfold lowerCost
      rw [if_pos hb]
    · refine ⟨e11, by rw [if_neg hb], ?_⟩
      unfold mergedSelfCost
      rw [h11]
      dsimp only
      rw [← hBc]
      unfold lowerCost
      rw [if_neg hb]
  | none =>
    refine ⟨eB, rfl, ?_⟩
    unfold mergedSelfCost
    rw [h11]
    dsimp only
    exact hBc

theorem claim_c10_witness :
    ∃ ed : Edge,
      dlookup "A" ((dlookup "A" (merge mergeLoopSt "A" "B").1.routingTables).getD [])
        = some ed ∧
      ed.cost = mergedSelfCost "A" "B" [("B", ⟨⟨5, 0⟩, 1⟩)] [("B", ⟨⟨1, 0⟩, 2⟩)]
        ⟨⟨5, 0⟩, 1⟩ :=
  claim_c10 mergeLoopSt "A" "B" [("B", ⟨⟨5, 0⟩, 1⟩)] [("B", ⟨⟨1, 0⟩, 2⟩)] ⟨⟨5, 0⟩, 1⟩
    (by decide) (by decide) (by decide) (by decide) (by decide)

/-- C10 counterexample: in `mergeLoopSt`, `A`'s row has the edge `B` at
cost `5.0`, `A` has no pre-existing self-entry, yet after `merge(A, B)`
the self-loop keyed `A` carries cost `1.0` (inherited from `B`'s cheaper
self-loop), not the claimed former `A→B` cost `5.0`. -/
theorem claim_c10_cex :
    dlookup "B" ((dlookup "A" mergeLoopSt.routingTables).getD []) = some ⟨⟨5, 0⟩, 1⟩ ∧
    dlookup "A" ((dlookup "A" mergeLoopSt.routingTables).getD []) = none ∧
    dlookup "A" ((dlookup "A" (merge mergeLoopSt "A" "B").1.routingTables).getD [])
      = some ⟨⟨1, 0⟩, 2⟩ ∧
    (⟨1, 0⟩ : Dec) ≠ ⟨5, 0⟩ :=
  ⟨rfl, rfl, rfl, by decide⟩

theorem dinsert_ne_nil {β : Type} (k : String) (v : β) (d : Dict β) :
    dinsert k v d ≠ [] := by
  cases d with
  | nil => simp [dinsert]
  | cons p t => by_cases hp : p.1 = k <;> simp [dinsert, hp]

theorem parseRouteCfg_ok_ne_nil {routes r : Dict Edge} {cfg : List Char}
    (h : parseRouteCfg routes cfg = .ok r) : r ≠ [] := by
  unfold parseRouteCfg at h
  repeat' split at h
  all_goals first
    | exact Except.noConfusion h
    | (injection h with h2; exact h2 ▸ dinsert_ne_nil _ _ _)

theorem foldCfg_ok_of_ne : ∀ (l : List (List Char)) {acc r : Dict Edge},
    acc ≠ [] → List.foldlM parseRouteCfg acc l = .ok r → r ≠ [] := by
  intro l
  induction l with
  | nil =>
    intro acc r ha h
    injection h with h2
    exact h2 ▸ ha
  | cons c t ih =>
    intro acc r ha h
    rw [show List.foldlM parseRouteCfg acc (c :: t) =
        parseRouteCfg acc c >>= (fun a => List.foldlM parseRouteCfg a t) from rfl] at h
    cases hc : parseRouteCfg acc c with
    | error m =>
      rw [hc] at h
      exact Except.noConfusion h
    | ok acc' =>
      rw [hc] at h
      rw [show (Except.ok acc' : Except Nat (Dict Edge)) >>=
          (fun a => List.foldlM parseRouteCfg a t) =
          List.foldlM parseRouteCfg acc' t from rfl] at h
      exact ih (parseRouteCfg_ok_ne_nil hc) h

theorem splitOnChar_ne_nil (sep : Char) : ∀ (l : List Char), splitOnChar sep l ≠ [] := by
  intro l
  induction l with
  | nil => simp [splitOnChar]
  | cons c t ih =>
    unfold splitOnChar
    by_cases hc : c = sep
    · simp [hc]
    · simp only [hc, if_false]
      split
      · simp
      · simp

theorem parse_update_ok_ne_nil {args : List String} {pr : String × Dict Edge}
    (h : parse_update args = .ok pr) : pr.2 ≠ [] := by
  rcases args with _ | ⟨a, _ | ⟨b, _ | ⟨c, t⟩⟩⟩
  · exact Except.noConfusion h
  · exact Except.noConfusion h
  · simp only [parse_update] at h
    cases hf : List.foldlM parseRouteCfg [] (splitOnChar ',' b.data) with
    | error m =>
      rw [hf] at h
      exact Except.noConfusion h
    | ok r =>
      rw [hf] at h
      rw [show (Except.ok r : Except Nat (Dict Edge)).map
          (fun r => (a, r)) = Except.ok (a, r) from rfl] at h
      injection h with h2
      have hr : r ≠ [] := by
        cases hsp : splitOnChar ',' b.data with
        | nil => exact absurd hsp (splitOnChar_ne_nil ',' b.data)
        | cons c0 t0 =>
          rw [hsp] at hf
          rw [show List.foldlM parseRouteCfg ([] : Dict Edge) (c0 :: t0) =
              parseRouteCfg [] c0 >>= (fun a' => List.foldlM parseRouteCfg a' t0)
              from rfl] at hf
          cases hc : parseRouteCfg [] c0 with
          | error m =>
            rw [hc] at hf
            exact Except.noConfusion hf
          | ok acc' =>
            rw [hc] at hf
            rw [show (Except.ok acc' : Except Nat (Dict Edge)) >>=
                (fun a' => List.foldlM parseRouteCfg a' t0) =
                List.foldlM parseRouteCfg acc' t0 from rfl] at hf
            exact foldCfg_ok_of_ne t0 (parseRouteCfg_ok_ne_nil hc) hf
      rw [← h2]
      exact hr
  · exact Except.noConfusion h

theorem dropLast_append_ne {α : Type} (a : List α) {b : List α} (h : b ≠ []) :
    (a ++ b).dropLast = a ++ b.dropLast := by
  induction a with
  | nil => simp
  | cons x t ih =>
    have hne2 : t ++ b ≠ [] := by
      intro hc
      exact h (List.append_eq_nil.mp hc).2
    rw [List.cons_append, List.dropLast_cons_of_ne_nil hne2, ih, List.cons_append]

theorem sortInsert_ne_nil {β : Type} (p : String × β) (d : Dict β) :
    sortInsert p d ≠ [] := by
  cases d with
  | nil => simp [sortInsert]
  | cons q t => by_cases h : strLt q.1 p.1 = true <;> simp [sortInsert, h]

theorem dsort_ne_nil {β : Type} {d : Dict β} (h : d ≠ []) : dsort d ≠ [] := by
  cases d with
  | nil => exact absurd rfl h
  | cons p t => exact sortInsert_ne_nil p (dsort t)

theorem flatten_comma_ne_nil {parts : List (List Char)} (h : parts ≠ []) :
    ((parts.map (fun x => x ++ [','])).flatten) ≠ [] := by
  cases parts with
  | nil => exact absurd rfl h
  | cons x t =>
    simp only [List.map_cons, List.flatten_cons]
    intro hc
    rcases List.append_eq_nil.mp hc with ⟨h1, _⟩
    rcases List.append_eq_nil.mp h1 with ⟨_, h3⟩
    exact List.noConfusion h3

theorem flatten_comma_dropLast : ∀ {parts : List (List Char)}, parts ≠ [] →
    ((parts.map (fun x => x ++ [','])).flatten).dropLast = intercalChar ',' parts := by
  intro parts
  induction parts with
  | nil => intro h; exact absurd rfl h
  | cons x t ih =>
    intro _
    cases t with
    | nil =>
      simp only [List.map_cons, List.map_nil, List.flatten_cons, List.flatten_nil,
        List.append_nil, intercalChar]
      exact List.dropLast_concat
    | cons y t2 =>
      have hrest : (y ++ [','] ++ ((t2.map (fun x => x ++ [','])).flatten)) ≠ [] := by
        intro hc
        rcases List.append_eq_nil.mp hc with ⟨h1, _⟩
        rcases List.append_eq_nil.mp h1 with ⟨_, h3⟩
        exact List.noConfusion h3
      simp only [List.map_cons, List.flatten_cons]
      rw [List.append_assoc x [','] _]
      rw [dropLast_append_ne x (by simp)]
      simp only [List.cons_append, List.nil_append]
      rw [List.dropLast_cons_of_ne_nil hrest]
      have h2 := ih (List.cons_ne_nil y t2)
      simp only [List.map_cons, List.flatten_cons] at h2
      rw [h2]
      rfl

theorem newUpdateChars_eq {nodeId : String} {routes : Dict Edge} (h : routes ≠ []) :
    newUpdateChars nodeId routes = updateChars nodeId routes := by
  unfold newUpdateChars updateChars routesChars
  have hmapeq : (dsort routes).map (fun p => entryChars p ++ [','])
      = ((dsort routes).map entryChars).map (fun x => x ++ [',']) := by
    rw [List.map_map]
    rfl
  rw [hmapeq]
  have hparts : (dsort routes).map entryChars ≠ [] := by
    intro hc
    exact dsort_ne_nil h (List.map_eq_nil.mp hc)
  rw [dropLast_append_ne _ (flatten_comma_ne_nil hparts)]
  rw [flatten_comma_dropLast hparts]
  simp

theorem update_discards {st : DVState} {args : List String} {pr : String × Dict Edge}
    (hp : parse_update args = .ok pr) (hne : pr.2 ≠ [])
    (hl : dlookup pr.1 st.routingTables = some pr.2) :
    update st args = .ok (st, []) := by
  have hd : dmem pr.1 st.routingTables = true := by
    rw [dmem, hl]
    rfl
  have hgen : generate_update st pr.1 = some (String.mk (updateChars pr.1 pr.2)) := by
    unfold generate_update
    rw [if_pos hd, hl]
    rfl
  unfold update
  rw [hp]
  dsimp only
  rw [if_pos hd, if_pos (show generate_update st pr.1
      = some (String.mk (newUpdateChars pr.1 pr.2)) from by
    rw [newUpdateChars_eq hne]
    exact hgen)]

/-- C5: processing an UPDATE never fires a recomputation/broadcast callback;
when the source already has a row whose canonical serialization is
byte-identical to that of the incoming route list, the update is discarded
with the state unchanged; otherwise the row is replaced wholesale; and the
whole operation is idempotent — re-applying the same payload to the
resulting state is an exact no-op. -/
theorem claim_c5 (st : DVState) (args : List String) (pr : String × Dict Edge)
    (st' : DVState) (ev : List Ev)
    (hp : parse_update args = .ok pr) :
    (update st args = .ok (st', ev) → ev = []) ∧
    (dmem pr.1 st.routingTables = true →
      generate_update st pr.1 = some (String.mk (updateChars pr.1 pr.2)) →
      update st args = .ok (st, [])) ∧
    (update st args = .ok (st', ev) →
      st' = st ∨ st'.routingTables = dinsert pr.1 pr.2 st.routingTables) ∧
    (update st args = .ok (st', ev) → update st' args = .ok (st', [])) := by
  have hne : pr.2 ≠ [] := parse_update_ok_ne_nil hp
  have hupd : update st args =
      (if dmem pr.1 st.routingTables = true then
        if generate_update st pr.1 = some (String.mk (newUpdateChars pr.1 pr.2)) then
          Except.ok (st, ([] : List Ev))
        else Except.ok
          ({ st with routingTables := dinsert pr.1 pr.2 st.routingTables }, [])
      else Except.ok
        ({ st with routingTables := dinsert pr.1 pr.2 st.routingTables }, [])) := by
    unfold update
    rw [hp]
  by_cases hd : dmem pr.1 st.routingTables = true
  · by_cases hser : generate_update st pr.1
        = some (String.mk (newUpdateChars pr.1 pr.2))
    · rw [if_pos hd, if_pos hser] at hupd
      refine ⟨?_, fun _ _ => hupd, ?_, ?_⟩
      · intro h
        rw [hupd] at h
        injection h with h2
        exact (Prod.mk.inj h2).2.symm
      · intro h
        rw [hupd] at h
        injection h with h2
        exact Or.inl (Prod.mk.inj h2).1.symm
      · intro h
        rw [hupd] at h
        injection h with h2
        rw [← (Prod.mk.inj h2).1]
        exact hupd
    · rw [if_pos hd, if_neg hser] at hupd
      refine ⟨?_, ?_, ?_, ?_⟩
      · intro h
        rw [hupd] at h
        injection h with h2
        exact (Prod.mk.inj h2).2.symm
      · intro _ hgen
        exact absurd (by rw [newUpdateChars_eq hne]; exact hgen) hser
      · intro h
        rw [hupd] at h
        injection h with h2
        right
        rw [← (Prod.mk.inj h2).1]
      · intro h
        rw [hupd] at h
        injection h with h2
        apply update_discards hp hne
        rw [← (Prod.mk.inj h2).1]
        exact dlookup_dinsert_self _ _ _
  · rw [if_neg hd] at hupd
    refine ⟨?_, ?_, ?_, ?_⟩
    · intro h
      rw [hupd] at h
      injection h with h2
      exact (Prod.mk.inj h2).2.symm
    · intro hdm _
      exact absurd hdm hd
    · intro h
      rw [hupd] at h
      injection h with h2
      right
      rw [← (Prod.mk.inj h2).1]
    · intro h
      rw [hupd] at h
      injection h with h2
      apply update_discards hp hne
      rw [← (Prod.mk.inj h2).1]
      exact dlookup_dinsert_self _ _ _

theorem claim_c5_witness :
    (update (initState "A" [("B", ⟨⟨4, 0⟩, 2001⟩)]) ["A", "B:4.0:2001"]
        = .ok (initState "A" [("B", ⟨⟨4, 0⟩, 2001⟩)], []) → ([] : List Ev) = []) ∧
    (dmem "A" (initState "A" [("B", ⟨⟨4, 0⟩, 2001⟩)]).routingTables = true →
      generate_update (initState "A" [("B", ⟨⟨4, 0⟩, 2001⟩)]) "A"
        = some (String.mk (updateChars "A" [("B", ⟨⟨4, 0⟩, 2001⟩)])) →
      update (initState "A" [("B", ⟨⟨4, 0⟩, 2001⟩)]) ["A", "B:4.0:2001"]
        = .ok (initState "A" [("B", ⟨⟨4, 0⟩, 2001⟩)], [])) ∧
    (update (initState "A" [("B", ⟨⟨4, 0⟩, 2001⟩)]) ["A", "B:4.0:2001"]
        = .ok (initState "A" [("B", ⟨⟨4, 0⟩, 2001⟩)], []) →
      initState "A" [("B", ⟨⟨4, 0⟩, 2001⟩)] = initState "A" [("B", ⟨⟨4, 0⟩, 2001⟩)] ∨
      (initState "A" [("B", ⟨⟨4, 0⟩, 2001⟩)]).routingTables
        = dinsert "A" [("B", ⟨⟨4, 0⟩, 2001⟩)]
            (initState "A" [("B", ⟨⟨4, 0⟩, 2001⟩)]).routingTables) ∧
    (update (initState "A" [("B", ⟨⟨4, 0⟩, 2001⟩)]) ["A", "B:4.0:2001"]
        = .ok (initState "A" [("B", ⟨⟨4, 0⟩, 2001⟩)], []) →
      update (initState "A" [("B", ⟨⟨4, 0⟩, 2001⟩)]) ["A", "B:4.0:2001"]
        = .ok (initState "A" [("B", ⟨⟨4, 0⟩, 2001⟩)], [])) :=
  claim_c5 (initState "A" [("B", ⟨⟨4, 0⟩, 2001⟩)]) ["A", "B:4.0:2001"]
    ("A", [("B", ⟨⟨4, 0⟩, 2001⟩)]) (initState "A" [("B", ⟨⟨4, 0⟩, 2001⟩)]) []
    (by rfl)

theorem charDigit_digitChar {d : Nat} (h : d < 10) : charDigit (digitChar d) = some d := by
  interval_cases d <;> decide

theorem digitChar_range {d : Nat} (h : d < 10) :
    48 ≤ (digitChar d).toNat ∧ (digitChar d).toNat ≤ 57 := by
  interval_cases d <;> decide

theorem natToDigs_digits : ∀ (fuel n : Nat), ∀ c ∈ natToDigs fuel n,
    48 ≤ c.toNat ∧ c.toNat ≤ 57 := by
  intro fuel
  induction fuel with
  | zero => intro n c hc; simp [natToDigs] at hc
  | succ f ih =>
    intro n c hc
    unfold natToDigs at hc
    by_cases hn : n = 0
    · simp [hn] at hc
    · rw [if_neg hn] at hc
      rcases List.mem_append.mp hc with h | h
      · exact ih _ c h
      · rw [List.mem_singleton] at h
        subst h
        exact digitChar_range (Nat.mod_lt _ (by omega))

theorem digsToNat_append : ∀ (l1 l2 : List Char) (a : Nat),
    digsToNat a (l1 ++ l2) =
      (match digsToNat a l1 with
       | some m => digsToNat m l2
       | none => none) := by
  intro l1
  induction l1 with
  | nil => intro l2 a; rfl
  | cons c t ih =>
    intro l2 a
    rw [List.cons_append]
    rw [show digsToNat a (c :: (t ++ l2)) = (match charDigit c with
        | some d => digsToNat (10 * a + d) (t ++ l2)
        | none => none) from rfl]
    rw [show digsToNat a (c :: t) = (match charDigit c with
        | some d => digsToNat (10 * a + d) t
        | none => none) from rfl]
    cases hc : charDigit c with
    | some d =>
      dsimp only
      exact ih l2 _
    | none => rfl

theorem digsToNat_natToDigs : ∀ (fuel n : Nat), n ≤ fuel → ∀ (acc : Nat),
    digsToNat acc (natToDigs fuel n)
      = some (acc * 10 ^ (natToDigs fuel n).length + n) := by
  intro fuel
  induction fuel with
  | zero =>
    intro n hn acc
    interval_cases n
    simp [natToDigs, digsToNat]
  | succ f ih =>
    intro n hn acc
    by_cases hn0 : n = 0
    · subst hn0
      simp [natToDigs, digsToNat]
    · have hrw : natToDigs (f + 1) n = natToDigs f (n / 10) ++ [digitChar (n % 10)] := by
        rw [show natToDigs (f + 1) n =
            (if n = 0 then [] else natToDigs f (n / 10) ++ [digitChar (n % 10)]) from rfl]
        rw [if_neg hn0]
      have hdiv : n / 10 ≤ f := by omega
      rw [hrw, digsToNat_append, ih (n / 10) hdiv acc]
      dsimp only
      rw [show digsToNat (acc * 10 ^ (natToDigs f (n / 10)).length + n / 10)
          [digitChar (n % 10)] =
          (match charDigit (digitChar (n % 10)) with
           | some d => digsToNat
              (10 * (acc * 10 ^ (natToDigs f (n / 10)).length + n / 10) + d) []
           | none => none) from rfl]
      rw [charDigit_digitChar (Nat.mod_lt _ (by omega))]
      dsimp only [digsToNat]
      congr 1
      rw [List.length_append, List.length_singleton, pow_succ]
      have hmod := Nat.div_add_mod n 10
      ring_nf
      omega

theorem digsToNat_natStrChars (n : Nat) : digsToNat 0 (natStrChars n) = some n := by
  unfold natStrChars
  by_cases hn : n = 0
  · rw [if_pos hn, hn]
    decide
  · rw [if_neg hn]
    have h := digsToNat_natToDigs (n + 1) n (by omega) 0
    simpa using h

theorem natStrChars_digits (n : Nat) : ∀ c ∈ natStrChars n,
    48 ≤ c.toNat ∧ c.toNat ≤ 57 := by
  unfold natStrChars
  by_cases hn : n = 0
  · rw [if_pos hn]
    intro c hc
    rw [List.mem_singleton] at hc
    subst hc
    decide
  · rw [if_neg hn]
    exact natToDigs_digits _ _

theorem natStrChars_ne_nil (n : Nat) : natStrChars n ≠ [] := by
  unfold natStrChars
  by_cases hn : n = 0
  · simp [hn]
  · rw [if_neg hn]
    rw [show natToDigs (n + 1) n =
        (if n = 0 then [] else natToDigs n (n / 10) ++ [digitChar (n % 10)]) from rfl]
    rw [if_neg hn]
    simp

theorem digsToNat_replicate_zero : ∀ (j : Nat) (l : List Char),
    digsToNat 0 (List.replicate j '0' ++ l) = digsToNat 0 l := by
  intro j
  induction j with
  | zero => intro l; rfl
  | succ k ih =>
    intro l
    rw [List.replicate_succ, List.cons_append]
    rw [show digsToNat 0 ('0' :: (List.replicate k '0' ++ l)) =
        digsToNat 0 (List.replicate k '0' ++ l) from rfl]
    exact ih l

theorem digsToNat_shift : ∀ (l : List Char) (a : Nat),
    digsToNat a l = (digsToNat 0 l).map (fun v => a * 10 ^ l.length + v) := by
  intro l
  induction l with
  | nil => intro a; simp [digsToNat]
  | cons c t ih =>
    intro a
    rw [show digsToNat a (c :: t) = (match charDigit c with
        | some d => digsToNat (10 * a + d) t
        | none => none) from rfl]
    rw [show digsToNat 0 (c :: t) = (match charDigit c with
        | some d => digsToNat (10 * 0 + d) t
        | none => none) from rfl]
    cases hc : charDigit c with
    | none => rfl
    | some d =>
      dsimp only
      rw [ih (10 * a + d), ih (10 * 0 + d)]
      cases h0 : digsToNat 0 t with
      | none => rfl
      | some v =>
        simp only [Option.map_some']
        congr 1
        rw [List.length_cons, pow_succ]
        ring

theorem digsToNat_digits_isSome : ∀ {l : List Char},
    (∀ c ∈ l, 48 ≤ c.toNat ∧ c.toNat ≤ 57) → ∀ a, ∃ v, digsToNat a l = some v := by
  intro l
  induction l with
  | nil => intro _ a; exact ⟨a, rfl⟩
  | cons c t ih =>
    intro h a
    have hc := h c (List.mem_cons_self _ _)
    have hcd : charDigit c = some (c.toNat - 48) := by
      unfold charDigit
      rw [if_pos hc]
    obtain ⟨v, hv⟩ := ih (fun x hx => h x (List.mem_cons_of_mem _ hx)) (10 * a + (c.toNat - 48))
    refine ⟨v, ?_⟩
    rw [show digsToNat a (c :: t) = (match charDigit c with
        | some d => digsToNat (10 * a + d) t
        | none => none) from rfl, hcd]
    exact hv

theorem signSplit_neg (t : List Char) : signSplit ('-' :: t) = (true, t) := rfl

theorem signSplit_digit {c : Char} (h : 48 ≤ c.toNat ∧ c.toNat ≤ 57) (t : List Char) :
    signSplit (c :: t) = (false, c :: t) := by
  unfold signSplit
  dsimp only
  rw [if_neg (fun hc => absurd h (by subst hc; decide)),
    if_neg (fun hc => absurd h (by subst hc; decide))]

theorem parseIntChars_intStrChars (i : Int) : parseIntChars (intStrChars i) = some i := by
  unfold intStrChars
  by_cases hi : i < 0
  · rw [if_pos hi]
    rw [show (['-'] ++ natStrChars i.natAbs) = '-' :: natStrChars i.natAbs from rfl]
    unfold parseIntChars
    rw [signSplit_neg]
    dsimp only
    rw [if_neg (natStrChars_ne_nil _), digsToNat_natStrChars]
    have habs : -(i.natAbs : Int) = i := by omega
    simp [habs, abs_of_neg hi]
  · rw [if_neg hi, List.nil_append]
    unfold parseIntChars
    cases hns : natStrChars i.natAbs with
    | nil => exact absurd hns (natStrChars_ne_nil _)
    | cons c t =>
      have hcdig : 48 ≤ c.toNat ∧ c.toNat ≤ 57 := by
        have := natStrChars_digits i.natAbs c
        rw [hns] at this
        exact this (List.mem_cons_self _ _)
      rw [signSplit_digit hcdig]
      dsimp only
      rw [if_neg (List.cons_ne_nil c t), ← hns, digsToNat_natStrChars]
      have habs : (i.natAbs : Int) = i := by omega
      simp [habs]

theorem padDigits_digits (m e : Nat) : ∀ c ∈ padDigits m e,
    48 ≤ c.toNat ∧ c.toNat ≤ 57 := by
  intro c hc
  rcases List.mem_append.mp hc with h | h
  · rw [List.eq_of_mem_replicate h]
    decide
  · exact natStrChars_digits _ c h

theorem padDigits_len (m e : Nat) : e + 1 ≤ (padDigits m e).length := by
  unfold padDigits
  rw [List.length_append, List.length_replicate]
  have := natStrChars_ne_nil m
  have hpos : 1 ≤ (natStrChars m).length := by
    cases hns : natStrChars m with
    | nil => exact absurd hns this
    | cons c t => simp
  omega

theorem padDigits_val (m e : Nat) : digsToNat 0 (padDigits m e) = some m := by
  unfold padDigits
  rw [digsToNat_replicate_zero, digsToNat_natStrChars]

theorem takeWhile_digits : ∀ {l1 : List Char} (l2 : List Char),
    (∀ c ∈ l1, 48 ≤ c.toNat ∧ c.toNat ≤ 57) →
    (l1 ++ '.' :: l2).takeWhile (fun c => c ≠ '.') = l1 ∧
    (l1 ++ '.' :: l2).dropWhile (fun c => c ≠ '.') = '.' :: l2 := by
  intro l1
  induction l1 with
  | nil =>
    intro l2 _
    constructor
    · simp [List.takeWhile_cons]
    · simp [List.dropWhile_cons]
  | cons c t ih =>
    intro l2 h
    have hc := h c (List.mem_cons_self _ _)
    have hcne : c ≠ '.' := fun hcc => absurd hc (by subst hcc; decide)
    obtain ⟨h1, h2⟩ := ih l2 (fun x hx => h x (List.mem_cons_of_mem _ hx))
    constructor
    · rw [List.cons_append, List.takeWhile_cons]
      rw [if_pos (by simp [hcne]), h1]
    · rw [List.cons_append, List.dropWhile_cons]
      rw [if_pos (by simp [hcne]), h2]

theorem contains_dot_eq_false {l : List Char}
    (h : ∀ c ∈ l, 48 ≤ c.toNat ∧ c.toNat ≤ 57) : l.contains '.' = false := by
  induction l with
  | nil => rfl
  | cons c t ih =>
    rw [List.contains_cons]
    have hc := h c (List.mem_cons_self _ _)
    have hb : ('.' == c) = false := by
      rw [beq_eq_false_iff_ne]
      intro hcc
      exact absurd hc (by rw [← hcc]; decide)
    rw [hb, Bool.false_or]
    exact ih (fun x hx => h x (List.mem_cons_of_mem _ hx))

theorem signSplit_digits_append {l1 : List Char}
    (h1 : ∀ c ∈ l1, 48 ≤ c.toNat ∧ c.toNat ≤ 57) (hne : l1 ≠ []) (l2 : List Char) :
    signSplit (l1 ++ l2) = (false, l1 ++ l2) := by
  cases l1 with
  | nil => exact absurd rfl hne
  | cons c t =>
    rw [List.cons_append]
    exact signSplit_digit (h1 c (List.mem_cons_self _ _)) _

theorem stripTen_of_normalized {m : Int} {e : Nat} (h : e = 0 ∨ ¬ m % 10 = 0) :
    stripTen m e = (m, e) := by
  cases e with
  | zero => rfl
  | succ k =>
    rcases h with h | h
    · exact absurd h (Nat.succ_ne_zero k)
    · rw [show stripTen m (k + 1) =
          (if m % 10 = 0 then stripTen (m / 10) k else (m, k + 1)) from rfl]
      rw [if_neg h]

theorem norm_of_normalized {d : Dec} (h : d.normalized) : Dec.norm d.m d.e = d := by
  unfold Dec.norm
  rw [stripTen_of_normalized h]

theorem norm_mul_ten (m : Int) : Dec.norm (m * 10) 1 = ⟨m, 0⟩ := by
  unfold Dec.norm
  rw [show stripTen (m * 10) 1 =
      (if (m * 10) % 10 = 0 then stripTen (m * 10 / 10) 0 else (m * 10, 1)) from rfl]
  rw [if_pos (Int.mul_emod_left m 10)]
  rw [show stripTen (m * 10 / 10) 0 = (m * 10 / 10, 0) from rfl]
  rw [Int.mul_ediv_cancel m (by norm_num)]

theorem digits_split_val {P : List Char} (hdig : ∀ c ∈ P, 48 ≤ c.toNat ∧ c.toNat ≤ 57)
    {mv : Nat} (hval : digsToNat 0 P = some mv) (k : Nat) :
    ∃ a b, digsToNat 0 (P.take k) = some a ∧ digsToNat 0 (P.drop k) = some b ∧
      a * 10 ^ (P.length - k) + b = mv := by
  obtain ⟨a, ha⟩ := digsToNat_digits_isSome
    (fun c hc => hdig c (List.take_subset _ _ hc)) 0
  obtain ⟨b, hb⟩ := digsToNat_digits_isSome
    (fun c hc => hdig c (List.drop_subset _ _ hc)) 0
  refine ⟨a, b, ha, hb, ?_⟩
  have h2 : digsToNat 0 (P.take k ++ P.drop k) = some mv := by
    rw [List.take_append_drop]
    exact hval
  rw [digsToNat_append, ha] at h2
  dsimp only at h2
  rw [digsToNat_shift, hb] at h2
  simp only [Option.map_some', Option.some.injEq] at h2
  rw [List.length_drop] at h2
  exact h2

theorem parseFloatParts_cons (neg : Bool) (ip : List Char) (c : Char) (fp : List Char) :
    parseFloatParts neg ip (c :: fp) =
      (if fp.contains '.' = true then none
       else if ip = [] ∧ fp = [] then none
       else match digsToNat 0 ip, digsToNat 0 fp with
         | some a, some b =>
           some (Dec.norm
             (if neg then -((a : Int) * (10 : Int) ^ fp.length + (b : Int))
              else (a : Int) * (10 : Int) ^ fp.length + (b : Int)) fp.length)
         | _, _ => none) := rfl

theorem parseFloat_floatRepr : ∀ {d : Dec}, d.normalized →
    parseFloatChars (floatReprChars d) = some d := by
  intro d hd
  obtain ⟨m, e⟩ := d
  by_cases he : e = 0
  · subst he
    have hrepr : floatReprChars ⟨m, 0⟩ = intStrChars m ++ '.' :: ['0'] := by
      unfold floatReprChars
      rw [if_pos rfl]
    obtain ⟨ht, hdr⟩ := @takeWhile_digits (natStrChars m.natAbs) ['0']
      (natStrChars_digits m.natAbs)
    by_cases hm : m < 0
    · have hint : intStrChars m = '-' :: natStrChars m.natAbs := by
        unfold intStrChars
        rw [if_pos hm]
        rfl
      rw [hrepr, hint, List.cons_append]
      unfold parseFloatChars
      rw [signSplit_neg]
      dsimp only
      rw [ht, hdr, parseFloatParts_cons]
      rw [if_neg (by decide)]
      rw [if_neg (fun hh => List.noConfusion hh.2)]
      rw [digsToNat_natStrChars]
      rw [show digsToNat 0 ['0'] = some 0 from rfl]
      dsimp only
      rw [show ((['0'] : List Char).length) = 1 from rfl]
      rw [if_pos rfl]
      have hval : -((m.natAbs : Int) * (10 : Int) ^ (1 : Nat)
          + ((0 : Nat) : Int)) = m * 10 := by
        have h0 : ((m.natAbs : Int)) = -m := by omega
        rw [h0]
        norm_num
      rw [hval, norm_mul_ten]
    · have hint : intStrChars m = natStrChars m.natAbs := by
        unfold intStrChars
        rw [if_neg hm, List.nil_append]
      rw [hrepr, hint]
      unfold parseFloatChars
      rw [signSplit_digits_append (natStrChars_digits m.natAbs) (natStrChars_ne_nil _)]
      dsimp only
      rw [ht, hdr, parseFloatParts_cons]
      rw [if_neg (by decide)]
      rw [if_neg (fun hh => List.noConfusion hh.2)]
      rw [digsToNat_natStrChars]
      rw [show digsToNat 0 ['0'] = some 0 from rfl]
      dsimp only
      rw [show ((['0'] : List Char).length) = 1 from rfl]
      rw [if_neg (by decide)]
      have hval : ((m.natAbs : Int) * (10 : Int) ^ (1 : Nat)
          + ((0 : Nat) : Int)) = m * 10 := by
        have h0 : ((m.natAbs : Int)) = m := by omega
        rw [h0]
        norm_num
      rw [hval, norm_mul_ten]
  · have hnorm : (⟨m, e⟩ : Dec).normalized := hd
    have hlen := padDigits_len m.natAbs e
    have hPdig := padDigits_digits m.natAbs e
    have hPval := padDigits_val m.natAbs e
    have hrepr : floatReprChars ⟨m, e⟩ = (if m < 0 then ['-'] else []) ++
        ((padDigits m.natAbs e).take ((padDigits m.natAbs e).length - e) ++
         '.' :: (padDigits m.natAbs e).drop ((padDigits m.natAbs e).length - e)) := by
      unfold floatReprChars
      rw [if_neg he]
      dsimp only
      rw [List.append_assoc]
    have htakedig : ∀ c ∈ (padDigits m.natAbs e).take ((padDigits m.natAbs e).length - e),
        48 ≤ c.toNat ∧ c.toNat ≤ 57 := fun c hc => hPdig c (List.take_subset _ _ hc)
    have hdropdig : ∀ c ∈ (padDigits m.natAbs e).drop ((padDigits m.natAbs e).length - e),
        48 ≤ c.toNat ∧ c.toNat ≤ 57 := fun c hc => hPdig c (List.drop_subset _ _ hc)
    have htake_ne : (padDigits m.natAbs e).take ((padDigits m.natAbs e).length - e) ≠ [] := by
      intro hc
      have h2 := congrArg List.length hc
      rw [List.length_take] at h2
      simp only [List.length_nil] at h2
      omega
    obtain ⟨ht, hdr⟩ := takeWhile_digits
      ((padDigits m.natAbs e).drop ((padDigits m.natAbs e).length - e)) htakedig
    obtain ⟨a, b, ha, hb, hab⟩ := digits_split_val hPdig hPval
      ((padDigits m.natAbs e).length - e)
    have hab2 : a * 10 ^ e + b = m.natAbs := by
      have h3 : (padDigits m.natAbs e).length - ((padDigits m.natAbs e).length - e)
          = e := by omega
      rw [h3] at hab
      exact hab
    have hlendrop :
        ((padDigits m.natAbs e).drop ((padDigits m.natAbs e).length - e)).length = e := by
      rw [List.length_drop]
      omega
    have hcast : ((a : Int)) * (10 : Int) ^ e + ((b : Nat) : Int) = (m.natAbs : Int) := by
      exact_mod_cast congrArg (fun n : Nat => (n : Int)) hab2
    by_cases hm : m < 0
    · rw [hrepr, if_pos hm, List.singleton_append]
      unfold parseFloatChars
      rw [signSplit_neg]
      dsimp only
      rw [ht, hdr, parseFloatParts_cons]
      rw [if_neg (by rw [contains_dot_eq_false hdropdig]; exact Bool.false_ne_true)]
      rw [if_neg (fun hh => htake_ne hh.1)]
      rw [ha, hb]
      dsimp only
      rw [if_pos rfl, hlendrop, hcast]
      have h4 : -((m.natAbs : Int)) = m := by omega
      rw [h4]
      exact congrArg some (norm_of_normalized hnorm)
    · rw [hrepr, if_neg hm, List.nil_append]
      unfold parseFloatChars
      rw [signSplit_digits_append htakedig htake_ne]
      dsimp only
      rw [ht, hdr, parseFloatParts_cons]
      rw [if_neg (by rw [contains_dot_eq_false hdropdig]; exact Bool.false_ne_true)]
      rw [if_neg (fun hh => htake_ne hh.1)]
      rw [ha, hb]
      dsimp only
      rw [if_neg (by decide), hlendrop, hcast]
      have h4 : ((m.natAbs : Int)) = m := by omega
      rw [h4]
      exact congrArg some (norm_of_normalized hnorm)

theorem intStrChars_class (i : Int) : ∀ c ∈ intStrChars i,
    c.toNat = 45 ∨ (48 ≤ c.toNat ∧ c.toNat ≤ 57) := by
  intro c hc
  unfold intStrChars at hc
  rcases List.mem_append.mp hc with h | h
  · by_cases hi : i < 0
    · rw [if_pos hi, List.mem_singleton] at h
      subst h
      left
      decide
    · rw [if_neg hi] at h
      simp at h
  · exact Or.inr (natStrChars_digits _ c h)

theorem floatReprChars_class (d : Dec) : ∀ c ∈ floatReprChars d,
    c.toNat = 45 ∨ c.toNat = 46 ∨ (48 ≤ c.toNat ∧ c.toNat ≤ 57) := by
  intro c hc
  unfold floatReprChars at hc
  by_cases he : d.e = 0
  · rw [if_pos he] at hc
    rcases List.mem_append.mp hc with h | h
    · rcases intStrChars_class d.m c h with h | h
      · exact Or.inl h
      · exact Or.inr (Or.inr h)
    · rcases List.mem_cons.mp h with rfl | h
      · exact Or.inr (Or.inl rfl)
      · rw [List.mem_singleton] at h
        subst h
        exact Or.inr (Or.inr (by decide))
  · rw [if_neg he] at hc
    rcases List.mem_append.mp hc with h | h
    · rcases List.mem_append.mp h with h2 | h2
      · by_cases hm : d.m < 0
        · rw [if_pos hm, List.mem_singleton] at h2
          subst h2
          exact Or.inl (by decide)
        · rw [if_neg hm] at h2
          simp at h2
      · exact Or.inr (Or.inr (padDigits_digits _ _ c (List.take_subset _ _ h2)))
    · rcases List.mem_cons.mp h with rfl | h3
      · exact Or.inr (Or.inl rfl)
      · exact Or.inr (Or.inr (padDigits_digits _ _ c (List.drop_subset _ _ h3)))

theorem splitOnChar_no_sep {sep : Char} : ∀ {x : List Char}, sep ∉ x →
    splitOnChar sep x = [x] := by
  intro x
  induction x with
  | nil => intro _; rfl
  | cons c t ih =>
    intro h
    have hc : ¬ c = sep := fun hcc => h (hcc ▸ List.mem_cons_self _ _)
    have ht := ih (fun hm => h (List.mem_cons_of_mem _ hm))
    unfold splitOnChar
    rw [if_neg hc, ht]

theorem splitOnChar_append {sep : Char} : ∀ {x : List Char} (l : List Char)
    {h : List Char} {t : List (List Char)}, sep ∉ x →
    splitOnChar sep l = h :: t → splitOnChar sep (x ++ l) = (x ++ h) :: t := by
  intro x
  induction x with
  | nil => intro l h t _ hl; simpa using hl
  | cons c x' ih =>
    intro l h t hsep hl
    have hc : ¬ c = sep := fun hcc => hsep (hcc ▸ List.mem_cons_self _ _)
    have h2 := ih l (fun hm => hsep (List.mem_cons_of_mem _ hm)) hl
    rw [List.cons_append]
    unfold splitOnChar
    rw [if_neg hc, h2]
    rfl

theorem splitOnChar_sep_cons (sep : Char) (l : List Char) :
    splitOnChar sep (sep :: l) = [] :: splitOnChar sep l := by
  rw [show splitOnChar sep (sep :: l)
      = (if sep = sep then [] :: splitOnChar sep l
         else match splitOnChar sep l with
           | [] => [[sep]]
           | h :: t' => (sep :: h) :: t') from rfl]
  rw [if_pos rfl]

theorem splitOnChar_intercal {sep : Char} : ∀ {parts : List (List Char)},
    parts ≠ [] → (∀ p ∈ parts, sep ∉ p) →
    splitOnChar sep (intercalChar sep parts) = parts := by
  intro parts
  induction parts with
  | nil => intro h _; exact absurd rfl h
  | cons x t ih =>
    intro _ hall
    cases t with
    | nil =>
      exact splitOnChar_no_sep (hall x (List.mem_cons_self _ _))
    | cons y t2 =>
      have hx : sep ∉ x := hall x (List.mem_cons_self _ _)
      have hrec := ih (List.cons_ne_nil y t2)
        (fun p hp => hall p (List.mem_cons_of_mem _ hp))
      rw [show intercalChar sep (x :: y :: t2)
          = x ++ sep :: intercalChar sep (y :: t2) from rfl]
      have hsplit : splitOnChar sep (sep :: intercalChar sep (y :: t2))
          = [] :: (y :: t2) := by
        rw [splitOnChar_sep_cons, hrec]
      have := splitOnChar_append (sep :: intercalChar sep (y :: t2)) hx hsplit
      rw [this, List.append_nil]

theorem entry_split {p : String × Edge} (hdest : ':' ∉ p.1.data) :
    splitOnChar ':' (entryChars p)
      = [p.1.data, floatReprChars p.2.cost, intStrChars p.2.port] := by
  have he : entryChars p = intercalChar ':'
      [p.1.data, floatReprChars p.2.cost, intStrChars p.2.port] := by
    show p.1.data ++ ':' :: floatReprChars p.2.cost ++ ':' :: intStrChars p.2.port
      = p.1.data ++ ':' :: (floatReprChars p.2.cost ++ ':' :: intStrChars p.2.port)
    rw [List.append_assoc, List.cons_append]
  rw [he]
  apply splitOnChar_intercal (by simp)
  intro q hq
  rcases List.mem_cons.mp hq with rfl | hq
  · exact hdest
  · rcases List.mem_cons.mp hq with rfl | hq
    · intro hc
      rcases floatReprChars_class p.2.cost ':' hc with h | h | h <;> revert h <;> decide
    · rw [List.mem_singleton] at hq
      subst hq
      intro hc
      rcases intStrChars_class p.2.port ':' hc with h | h <;> revert h <;> decide

theorem parseRouteCfg_entry {acc : Dict Edge} {p : String × Edge}
    (hdest : ':' ∉ p.1.data) (hcost : p.2.cost.normalized) :
    parseRouteCfg acc (entryChars p) = .ok (dinsert p.1 p.2 acc) := by
  unfold parseRouteCfg
  rw [entry_split hdest]
  dsimp only
  rw [show parseFloatChars (floatReprChars p.2.cost) = some p.2.cost
    from parseFloat_floatRepr hcost]
  dsimp only
  rw [parseIntChars_intStrChars]

theorem entryChars_no_comma {p : String × Edge} (hd : ',' ∉ p.1.data) :
    ',' ∉ entryChars p := by
  intro hc
  unfold entryChars at hc
  rcases List.mem_append.mp hc with h | h
  · rcases List.mem_append.mp h with h2 | h2
    · exact hd h2
    · rcases List.mem_cons.mp h2 with h3 | h3
      · exact absurd h3 (by decide)
      · rcases floatReprChars_class p.2.cost ',' h3 with h4 | h4 | h4 <;>
          revert h4 <;> decide
  · rcases List.mem_cons.mp h with h3 | h3
    · exact absurd h3 (by decide)
    · rcases intStrChars_class p.2.port ',' h3 with h4 | h4 <;>
        revert h4 <;> decide

theorem foldCfg_entries : ∀ (l : Dict Edge) (acc : Dict Edge),
    (∀ p ∈ l, ':' ∉ p.1.data ∧ p.2.cost.normalized) →
    (l.map entryChars).foldlM parseRouteCfg acc
      = .ok (l.foldl (fun a p => dinsert p.1 p.2 a) acc) := by
  intro l
  induction l with
  | nil => intro acc _; rfl
  | cons p t ih =>
    intro acc hall
    have hp := hall p (List.mem_cons_self _ _)
    have h1 : ((p :: t).map entryChars).foldlM parseRouteCfg acc
        = parseRouteCfg acc (entryChars p) >>=
            fun s => (t.map entryChars).foldlM parseRouteCfg s := rfl
    rw [h1, parseRouteCfg_entry hp.1 hp.2]
    have h2 : (Except.ok (dinsert p.1 p.2 acc) >>=
          fun s => (t.map entryChars).foldlM parseRouteCfg s)
        = (t.map entryChars).foldlM parseRouteCfg (dinsert p.1 p.2 acc) := rfl
    rw [h2, ih _ (fun q hq => hall q (List.mem_cons_of_mem _ hq))]
    rfl

theorem dinsert_not_mem {β : Type} {k : String} {v : β} : ∀ {d : Dict β},
    k ∉ dkeys d → dinsert k v d = d ++ [(k, v)] := by
  intro d
  induction d with
  | nil => intro _; rfl
  | cons p t ih =>
    intro h
    simp only [dkeys, List.map_cons, List.mem_cons] at h
    push_neg at h
    have hp : ¬ p.1 = k := fun he => h.1 he.symm
    rw [show dinsert k v (p :: t)
        = (if p.1 = k then (k, v) :: t else p :: dinsert k v t) from rfl,
      if_neg hp, ih h.2, List.cons_append]

theorem foldl_dinsert_nodup {β : Type} : ∀ (l acc : Dict β),
    (dkeys (acc ++ l)).Nodup →
    l.foldl (fun a p => dinsert p.1 p.2 a) acc = acc ++ l := by
  intro l
  induction l with
  | nil => intro acc _; simp
  | cons p t ih =>
    intro acc h
    have h2 : (dkeys ((acc ++ [p]) ++ t)).Nodup := by
      rw [List.append_assoc]; exact h
    have hk : p.1 ∉ dkeys acc := by
      have h3 := h
      simp only [dkeys, List.map_append, List.map_cons] at h3
      have h4 := (List.nodup_cons.mp (List.nodup_middle.mp h3)).1
      intro hm
      exact h4 (List.mem_append_left _ (by simpa [dkeys] using hm))
    rw [List.foldl_cons, dinsert_not_mem hk, ih _ h2, List.append_assoc]
    rfl

theorem sortInsert_perm {β : Type} (p : String × β) : ∀ (d : Dict β),
    (sortInsert p d).Perm (p :: d) := by
  intro d
  induction d with
  | nil => exact List.Perm.refl _
  | cons q t ih =>
    by_cases h : strLt q.1 p.1 = true
    · rw [show sortInsert p (q :: t)
          = (if strLt q.1 p.1 then q :: sortInsert p t else p :: q :: t) from rfl,
        if_pos h]
      exact (ih.cons q).trans (List.Perm.swap p q t)
    · rw [show sortInsert p (q :: t)
          = (if strLt q.1 p.1 then q :: sortInsert p t else p :: q :: t) from rfl,
        if_neg h]

theorem dsort_perm {β : Type} : ∀ (d : Dict β), (dsort d).Perm d := by
  intro d
  induction d with
  | nil => exact List.Perm.refl _
  | cons p t ih =>
    rw [show dsort (p :: t) = sortInsert p (dsort t) from rfl]
    exact (sortInsert_perm p (dsort t)).trans (ih.cons p)

theorem dlookup_some_of_mem {β : Type} {k : String} {v : β} : ∀ {d : Dict β},
    (dkeys d).Nodup → (k, v) ∈ d → dlookup k d = some v := by
  intro d
  induction d with
  | nil => intro _ h; simp at h
  | cons p t ih =>
    intro hn hm
    simp only [dkeys, List.map_cons, List.nodup_cons] at hn
    rcases List.mem_cons.mp hm with h | h
    · subst h
      simp [dlookup]
    · have hp : ¬ p.1 = k := by
        intro he
        apply hn.1
        rw [he]
        exact List.mem_map_of_mem (fun x => x.1) h
      rw [show dlookup k (p :: t)
          = (if p.1 = k then some p.2 else dlookup k t) from rfl, if_neg hp]
      exact ih hn.2 h

theorem dlookup_perm {β : Type} {d d' : Dict β} (hp : d.Perm d')
    (hn : (dkeys d).Nodup) (k : String) : dlookup k d = dlookup k d' := by
  have hpk := hp.map (fun x : String × β => x.1)
  have hn2 : (List.map (fun x : String × β => x.1) d).Nodup := hn
  have hn' : (dkeys d').Nodup := hpk.nodup_iff.mp hn2
  cases hd : dlookup k d with
  | none =>
    have hk : k ∉ dkeys d := dlookup_none_iff.mp hd
    have hk' : k ∉ dkeys d' := fun hm => hk (hpk.mem_iff.mpr hm)
    exact (dlookup_none_iff.mpr hk').symm
  | some v =>
    have hm : (k, v) ∈ d := dlookup_mem hd
    have hm' : (k, v) ∈ d' := hp.mem_iff.mp hm
    exact (dlookup_some_of_mem hn' hm').symm

/-- C6: round trip of `generate_update` through the UPDATE payload parser.
For a node whose row is present, nonempty, has unique destination keys free
of the `:` and `,` separators, and stores canonical decimal costs, the
serialized line is `UPDATE <id> <routes>` and feeding the routes payload
back through `parse_update` succeeds and reproduces exactly the same row
mapping (the parsed dict is the sorted row, which looks up identically to
the original row).  The nonemptiness hypothesis is essential: an empty row
serializes to an empty payload, which the parser rejects. -/
theorem claim_c6 {st : DVState} {id : String} {row : Dict Edge}
    (h1 : dlookup id st.routingTables = some row)
    (h2 : row ≠ [])
    (h3 : (dkeys row).Nodup)
    (h4 : ∀ p ∈ row, (':' ∉ p.1.data ∧ ',' ∉ p.1.data) ∧ p.2.cost.normalized) :
    generate_update st id = some (String.mk (updateChars id row)) ∧
    parse_update [id, String.mk (routesChars row)] = .ok (id, dsort row) ∧
    ∀ d, dlookup d (dsort row) = dlookup d row := by
  refine ⟨?_, ?_, ?_⟩
  · unfold generate_update dmem
    rw [h1]
    rfl
  · have hs : splitOnChar ',' (routesChars row) = (dsort row).map entryChars := by
      unfold routesChars
      apply splitOnChar_intercal
      · intro hmap
        exact dsort_ne_nil h2 (List.map_eq_nil_iff.mp hmap)
      · intro p hp
        rcases List.mem_map.mp hp with ⟨q, hq, rfl⟩
        exact entryChars_no_comma ((h4 q ((dsort_perm row).subset hq)).1.2)
    have hall : ∀ p ∈ dsort row, ':' ∉ p.1.data ∧ p.2.cost.normalized := by
      intro p hp
      have hp2 := h4 p ((dsort_perm row).subset hp)
      exact ⟨hp2.1.1, hp2.2⟩
    have hnd : (dkeys ([] ++ dsort row)).Nodup := by
      rw [List.nil_append]
      have h5 : (List.map (fun x : String × Edge => x.1) row).Nodup := h3
      exact (((dsort_perm row).map (fun x : String × Edge => x.1)).nodup_iff).mpr h5
    have hfl : (dsort row).foldl (fun a p => dinsert p.1 p.2 a) [] = dsort row := by
      have h6 := foldl_dinsert_nodup (dsort row) [] hnd
      rwa [List.nil_append] at h6
    show ((splitOnChar ',' (routesChars row)).foldlM parseRouteCfg []).map
        (fun r => (id, r)) = Except.ok (id, dsort row)
    rw [hs, foldCfg_entries _ _ hall, hfl]
    rfl
  · intro d
    have hnd2 : (dkeys (dsort row)).Nodup := by
      have h5 : (List.map (fun x : String × Edge => x.1) row).Nodup := h3
      exact (((dsort_perm row).map (fun x : String × Edge => x.1)).nodup_iff).mpr h5
    exact dlookup_perm (dsort_perm row) hnd2 d

theorem claim_c6_witness :
    (dlookup "A" (initState "A" [("B", ⟨⟨25, 1⟩, 5001⟩)]).routingTables
        = some [("B", (⟨⟨25, 1⟩, 5001⟩ : Edge))]) ∧
    ([("B", (⟨⟨25, 1⟩, 5001⟩ : Edge))] ≠ ([] : Dict Edge)) ∧
    (dkeys [("B", (⟨⟨25, 1⟩, 5001⟩ : Edge))]).Nodup ∧
    (∀ p ∈ [("B", (⟨⟨25, 1⟩, 5001⟩ : Edge))],
        (':' ∉ p.1.data ∧ ',' ∉ p.1.data) ∧ p.2.cost.normalized) ∧
    (generate_update (initState "A" [("B", ⟨⟨25, 1⟩, 5001⟩)]) "A"
        = some (String.mk (updateChars "A" [("B", ⟨⟨25, 1⟩, 5001⟩)])) ∧
      parse_update ["A", String.mk (routesChars [("B", ⟨⟨25, 1⟩, 5001⟩)])]
        = .ok ("A", dsort [("B", ⟨⟨25, 1⟩, 5001⟩)]) ∧
      ∀ d, dlookup d (dsort [("B", (⟨⟨25, 1⟩, 5001⟩ : Edge))])
        = dlookup d [("B", (⟨⟨25, 1⟩, 5001⟩ : Edge))]) :=
  ⟨by decide, by decide, by decide, by decide,
    claim_c6 (by decide) (by decide) (by decide) (by decide)⟩

theorem claim_c6_cex :
    generate_update (initState "A" []) "A" = some "UPDATE A " ∧
    parse_update ["A", ""] = Except.error 3 := by
  constructor
  · rfl
  · rfl
